import Mathlib

/-!
# hnswlib examples: the `ParallelFor` executor, the label filter and the query task

Shallow embedding of `examples/cpp/example_mt_filter.cpp` and
`examples/cpp/example_filter.cpp`.

* `size_t` values are natural numbers below `SIZE_MOD = 2 ^ 64`; the atomic
  `fetch_add` is taken modulo `SIZE_MOD`.
* The multi-threaded branch of `ParallelFor` is a step function on an explicit
  state (shared cursor, exception slot, mutex, one program counter per thread).
  The actions are the accesses to shared memory (`fetch_add`, the call of the task,
  locking the mutex, writing the slot, storing the cursor); they are atomic and
  sequentially consistent, as `std::atomic` and `std::mutex` make them. A schedule
  is the list of thread ids in the order in which they take their next action, so
  "every interleaving" is "every schedule".
* The task `fn` is a function from `(id, threadId)` to the failure it raises on
  that call, if any; the calls made are kept in the log of the run.
* Termination is proved for every input: a schedule has at most `runBound` actions
  (`exec_bounded`) and extends to a complete one (`ParallelFor_completes`).
-/

namespace ParallelExec

/-- Number of values of `size_t` (64-bit). -/
def SIZE_MOD : Nat := 2 ^ 64

/-- Program counter of one worker thread of `ParallelFor` (lines 59-82). -/
inductive PC (E : Type) where
  /-- At the top of `while (true)`: next action is `current.fetch_add(1)` (line 61). -/
  | fetch : PC E
  /-- Passed `id >= end` as false: next action is `fn(id, threadId)` (line 68). -/
  | call (id : Nat) : PC E
  /-- In the `catch (...)` handler with failure `e`: next action locks the mutex (line 70). -/
  | caught (e : E) : PC E
  /-- Holding the mutex: next action is `lastException = current_exception()` (line 71). -/
  | locked (e : E) : PC E
  /-- Holding the mutex: next action is `current = end`, then unlock and `break` (lines 78-79). -/
  | store : PC E
  /-- The thread function has returned. -/
  | done : PC E
  deriving DecidableEq

/-- Observable actions of a run, in the order they happen. -/
inductive Event (E : Type) where
  /-- Thread `tid` got `id` back from `current.fetch_add(1)`. -/
  | fetched (tid id : Nat) : Event E
  /-- The call `fn(id, tid)` was made. -/
  | invoked (tid id : Nat) : Event E
  /-- Thread `tid` wrote `e` into `lastException`. -/
  | recorded (tid : Nat) (e : E) : Event E
  /-- Thread `tid` executed `current = end`. -/
  | cancelled (tid : Nat) : Event E
  deriving DecidableEq

/-- The thread function has returned. -/
def PC.isDone {E : Type} : PC E → Bool
  | PC.done => true
  | _ => false

/-- The thread owns `lastExceptMutex` (it is inside the scope of `lastExcepLock`). -/
def PC.holdsMutex {E : Type} : PC E → Bool
  | PC.locked _ => true
  | PC.store => true
  | _ => false

/-- Shared state of the multi-threaded branch (lines 50-56) plus the event log;
`lastExceptMutex` is `true` while the mutex is locked. -/
structure State (E : Type) where
  current : Nat
  lastException : Option E
  lastExceptMutex : Bool
  pcs : List (PC E)
  log : List (Event E)
  deriving DecidableEq

/-- How a call of `ParallelFor` ends. -/
inductive Outcome (E : Type) where
  | returned : Outcome E
  | raised (e : E) : Outcome E
  deriving DecidableEq

/-- What a finished call of `ParallelFor` did: its events and how it ended. -/
structure Run (E : Type) where
  log : List (Event E)
  outcome : Outcome E
  deriving DecidableEq

/-- State after `std::atomic<size_t> current(start)`, `lastException = nullptr` and the
spawning of `numThreads` threads, none of which has acted yet (lines 50-58). -/
def initState {E : Type} (start numThreads : Nat) : State E :=
  { current := start, lastException := none, lastExceptMutex := false,
    pcs := List.replicate numThreads PC.fetch, log := [] }

/-- One shared-memory action of thread `tid` (the lambda of lines 59-82).
`none` when the thread does not exist, has finished, or is blocked on the mutex. -/
def step {E : Type} (end_ : Nat) (fn : Nat → Nat → Option E) (s : State E) (tid : Nat) :
    Option (State E) :=
  match s.pcs[tid]? with
  | none => none
  | some PC.fetch =>
      let id := s.current
      some { s with
        current := (s.current + 1) % SIZE_MOD
        pcs := s.pcs.set tid (if id ≥ end_ then PC.done else PC.call id)
        log := s.log ++ [Event.fetched tid id] }
  | some (PC.call id) =>
      some { s with
        pcs := s.pcs.set tid (match fn id tid with
                              | none => PC.fetch
                              | some e => PC.caught e)
        log := s.log ++ [Event.invoked tid id] }
  | some (PC.caught e) =>
      if s.lastExceptMutex then none
      else some { s with lastExceptMutex := true, pcs := s.pcs.set tid (PC.locked e) }
  | some (PC.locked e) =>
      some { s with
        lastException := some e
        pcs := s.pcs.set tid PC.store
        log := s.log ++ [Event.recorded tid e] }
  | some PC.store =>
      some { s with
        current := end_
        lastExceptMutex := false
        pcs := s.pcs.set tid PC.done
        log := s.log ++ [Event.cancelled tid] }
  | some PC.done => none

/-- Run the threads along a schedule; `none` if the schedule names a thread that
cannot act at that point. -/
def exec {E : Type} (end_ : Nat) (fn : Nat → Nat → Option E) :
    State E → List Nat → Option (State E)
  | s, [] => some s
  | s, tid :: rest =>
      match step end_ fn s tid with
      | none => none
      | some s' => exec end_ fn s' rest

/-- Every thread has returned, so every `thread.join()` of lines 84-86 returns. -/
def allDone {E : Type} (s : State E) : Bool :=
  s.pcs.all PC.isDone

/-- Lines 87-89, `if (lastException) std::rethrow_exception(lastException);`, as a
function of the content of the slot. -/
def rethrow {E : Type} : Option E → Outcome E
  | none => Outcome.returned
  | some e => Outcome.raised e

/-- Lines 87-89 on the state reached after the joins. -/
def joinOutcome {E : Type} (s : State E) : Outcome E :=
  rethrow s.lastException

/-- The sequential branch, lines 46-48: `for (id = start; id < end; id++) fn(id, 0)`.
The first argument bounds the number of loop tests; `none` when it is used up. -/
def seqLoop {E : Type} (end_ : Nat) (fn : Nat → Nat → Option E) :
    Nat → Nat → List (Event E) → Option (Run E)
  | 0, _, _ => none
  | fuel + 1, id, log =>
      if id < end_ then
        match fn id 0 with
        | some e => some { log := log ++ [Event.invoked 0 id], outcome := Outcome.raised e }
        | none => seqLoop end_ fn fuel ((id + 1) % SIZE_MOD) (log ++ [Event.invoked 0 id])
      else some { log := log, outcome := Outcome.returned }

/-- Lines 41-43: `if (numThreads <= 0) numThreads = hardware_concurrency();`. -/
def resolveThreads (hw numThreads : Nat) : Nat :=
  if numThreads ≤ 0 then hw else numThreads

/-- The function `ParallelFor(start, end, numThreads, fn)`, lines 39-91.
`hw` is the value `std::thread::hardware_concurrency()` returns; `sched` is the
interleaving of the worker threads (unused by the sequential branch).
The result is `none` when `sched` is not a complete interleaving. -/
def ParallelFor {E : Type} (hw : Nat) (start end_ numThreads : Nat)
    (fn : Nat → Nat → Option E) (sched : List Nat) : Option (Run E) :=
  let numThreads := resolveThreads hw numThreads
  if numThreads = 1 then
    seqLoop end_ fn (end_ - start + 1) start []
  else
    match exec end_ fn (initState start numThreads) sched with
    | none => none
    | some s =>
        if allDone s then some { log := s.log, outcome := joinOutcome s } else none

/-- Ids on which the task was invoked, in order of invocation. -/
def invokedIds {E : Type} (log : List (Event E)) : List Nat :=
  log.filterMap (fun ev => match ev with
                           | Event.invoked _ id => some id
                           | _ => none)

/-- Number of `fetch_add` calls made so far. -/
def fetchCount {E : Type} (log : List (Event E)) : Nat :=
  log.countP (fun ev => match ev with
                        | Event.fetched _ _ => true
                        | _ => false)

/-- Number of threads that have returned. -/
def doneCount {E : Type} (pcs : List (PC E)) : Nat :=
  pcs.countP PC.isDone

/-- No call of the task made so far raised. -/
def noRaise {E : Type} (fn : Nat → Nat → Option E) (log : List (Event E)) : Prop :=
  ∀ tid id, Event.invoked tid id ∈ log → fn id tid = none

/-- The failure written by the last `lastException = ...` of the log, if any. -/
def lastRecorded {E : Type} (log : List (Event E)) : Option E :=
  log.foldl (fun acc ev => match ev with
                           | Event.recorded _ e => some e
                           | _ => acc) none

/-- The failure written by the first `lastException = ...` of the log, if any. -/
def firstRecorded {E : Type} : List (Event E) → Option E
  | [] => none
  | Event.recorded _ e :: _ => some e
  | _ :: rest => firstRecorded rest

/-- Well-formedness of a state: the cursor is a `size_t`, and a held mutex has an
owner, which is a thread inside the `catch` handler. -/
def WF {E : Type} (s : State E) : Prop :=
  s.current < SIZE_MOD ∧
  (s.lastExceptMutex = true → ∃ (w : Nat) (p : PC E), s.pcs[w]? = some p ∧ p.holdsMutex = true)

/-- Mutual exclusion on `lastExceptMutex`: a thread inside the critical section
holds the mutex, and at most one thread is inside. -/
def MutexOK {E : Type} (s : State E) : Prop :=
  (∀ (w : Nat) (p : PC E), s.pcs[w]? = some p → p.holdsMutex = true →
      s.lastExceptMutex = true) ∧
  (∀ (w w' : Nat) (p p' : PC E), s.pcs[w]? = some p → s.pcs[w']? = some p' →
      p.holdsMutex = true → p'.holdsMutex = true → w = w')

/-! ## The label filter and the query task -/

/-- The class `PickDivisibleIds`: its only field is `unsigned int divisor`. -/
structure PickDivisibleIds where
  divisor : Nat
  deriving DecidableEq

/-- The constructor `PickDivisibleIds(divisor)` with its `assert(divisor != 0)`:
`none` when the assertion fails. -/
def PickDivisibleIds.make (divisor : Nat) : Option PickDivisibleIds :=
  if divisor ≠ 0 then some { divisor := divisor } else none

/-- The call operator `operator()(label_id)`, `return label_id % divisor == 0;`.
It is not declared `const`, so the object after the call is returned too. -/
def PickDivisibleIds.call (self : PickDivisibleIds) (label_id : Nat) :
    Bool × PickDivisibleIds :=
  (decide (label_id % self.divisor = 0), self)

/-- The sanity check of both examples: `label % 2 == 1` prints
"Error: found odd label". -/
def oddLabelError (label : Nat) : Bool :=
  decide (label % 2 = 1)

/-- The slot `auto index = row * k + i;` (a `size_t`) of the query task and of the
report loop. -/
def slotIndex (row k i : Nat) : Nat :=
  (row * k + i) % SIZE_MOD

/-- The two flat result vectors `scores` and `neighbors`. -/
structure ResultBuffer (S L : Type) where
  scores : List S
  neighbors : List L
  deriving DecidableEq

/-- Failures the query task itself can raise: `std::out_of_range` from `result.at(i)`. -/
inductive TaskError where
  | out_of_range : TaskError
  deriving DecidableEq

/-- The loop `for (int i = 0; i < k; i++)` of the query task (lines 165-169), entered at
`i` with `n = k - i` iterations left. `result.at(i)` raises when `i` is not an index of
`result`; the buffers written so far are returned with the failure. -/
def copyRow {S L : Type} (k row : Nat) (result : List (S × L)) :
    Nat → Nat → ResultBuffer S L → ResultBuffer S L × Option TaskError
  | 0, _, buf => (buf, none)
  | n + 1, i, buf =>
      match result[i]? with
      | none => (buf, some TaskError.out_of_range)
      | some p =>
          copyRow k row result n (i + 1)
            { scores := buf.scores.set (slotIndex row k i) p.1
              neighbors := buf.neighbors.set (slotIndex row k i) p.2 }

/-- The query task of `main` (lines 161-170) for one `row`, given the vector `result`
that `searchKnnCloserFirst` returned for that row. -/
def queryTask {S L : Type} (k row : Nat) (result : List (S × L))
    (buf : ResultBuffer S L) : ResultBuffer S L × Option TaskError :=
  copyRow k row result k 0 buf

/-- Bound on the number of actions thread `w` takes when it runs alone until it
returns. -/
def workMeasure {E : Type} (s : State E) (w : Nat) : Nat :=
  match s.pcs[w]? with
  | some PC.fetch => 2 * (SIZE_MOD - s.current) + 4
  | some (PC.call _) => 2 * (SIZE_MOD - s.current) + 5
  | some (PC.caught _) => 3
  | some (PC.locked _) => 2
  | some PC.store => 1
  | _ => 0

/-- Bookkeeping of failures: the slot holds a failure some call raised; a thread in
the `catch` handler got there by a call that raised; and every call that raised has
either reached the slot or its thread is still on its way to writing it. -/
def FailInv {E : Type} (fn : Nat → Nat → Option E) (s : State E) : Prop :=
  (∀ e, s.lastException = some e →
      ∃ tid id, Event.invoked tid id ∈ s.log ∧ fn id tid = some e) ∧
  (∀ w e, (s.pcs[w]? = some (PC.caught e) ∨ s.pcs[w]? = some (PC.locked e)) →
      ∃ id, Event.invoked w id ∈ s.log ∧ fn id w = some e) ∧
  (∀ w, s.pcs[w]? = some PC.store → ∃ id, Event.invoked w id ∈ s.log ∧ fn id w ≠ none) ∧
  (∀ tid id, Event.invoked tid id ∈ s.log → fn id tid ≠ none →
      s.lastException ≠ none ∨
      ∃ e, s.pcs[tid]? = some (PC.caught e) ∨ s.pcs[tid]? = some (PC.locked e))

/-- Before any call has raised, index `j` has been claimed or the cursor has not passed
it yet (and then no thread has returned). -/
def ReachInv {E : Type} (fn : Nat → Nat → Option E) (j : Nat) (s : State E) : Prop :=
  noRaise fn s.log →
    (∃ tid, Event.invoked tid j ∈ s.log) ∨ (∃ w : Nat, s.pcs[w]? = some (PC.call j)) ∨
    (s.current ≤ j ∧ ∀ w : Nat, s.pcs[w]? ≠ some PC.done)

/-- Bookkeeping for exactly-once execution, valid as long as no call has raised:
the cursor is `start` plus the number of claims; it has passed `end` by at most one
per returned thread; the ids being called are distinct, inside the range and not yet
in the log; the ids in the log are distinct and inside the range; and every id of the
range below the cursor is in the log or being called. -/
def OnceInv {E : Type} (fn : Nat → Nat → Option E) (start end_ : Nat) (s : State E) :
    Prop :=
  noRaise fn s.log →
    s.current = (start + fetchCount s.log) % SIZE_MOD ∧
    start + fetchCount s.log ≤ max start end_ + doneCount s.pcs ∧
    (1 ≤ doneCount s.pcs → end_ < start + fetchCount s.log) ∧
    (∀ (w id : Nat), s.pcs[w]? = some (PC.call id) →
      start ≤ id ∧ id < start + fetchCount s.log ∧ id < end_ ∧ id ∉ invokedIds s.log) ∧
    (∀ (w w' id : Nat), s.pcs[w]? = some (PC.call id) → s.pcs[w']? = some (PC.call id) →
      w = w') ∧
    (invokedIds s.log).Nodup ∧
    (∀ id, id ∈ invokedIds s.log →
      start ≤ id ∧ id < start + fetchCount s.log ∧ id < end_) ∧
    (∀ id, start ≤ id → id < start + fetchCount s.log → id < end_ →
      id ∈ invokedIds s.log ∨ ∃ w : Nat, s.pcs[w]? = some (PC.call id))

/-- Weight of a thread in the termination measure: a thread that has not returned
counts for more than the cursor can ever regain. -/
def pcWeight {E : Type} : PC E → Nat
  | PC.fetch => 2 * SIZE_MOD + 13
  | PC.call _ => 2 * SIZE_MOD + 14
  | PC.caught _ => 2 * SIZE_MOD + 12
  | PC.locked _ => 2 * SIZE_MOD + 11
  | PC.store => 2 * SIZE_MOD + 10
  | PC.done => 0

/-- Termination measure of the multi-threaded branch: it decreases with every action
of every thread. -/
def potential {E : Type} (s : State E) : Nat :=
  (s.pcs.map pcWeight).sum + 2 * (SIZE_MOD - s.current)

/-- Bound on the number of actions the threads of one call can take together. -/
def runBound (start numThreads : Nat) : Nat :=
  numThreads * (2 * SIZE_MOD + 13) + 2 * (SIZE_MOD - start)

/-- Bookkeeping for cancellation when the cursor cannot wrap: the cursor has passed
the larger bound by at most one per returned thread and is not below the smaller one;
once `current = end` was stored the cursor stays at or above `end`; the ids called are
inside the range; and no claim made after a store of `current = end` is below `end`. -/
def CancelInv {E : Type} (start end_ n : Nat) (s : State E) : Prop :=
  s.pcs.length = n ∧
  s.current ≤ max start end_ + doneCount s.pcs ∧
  (min start end_ ≤ s.current ∨ doneCount s.pcs = n) ∧
  ((∃ tid, Event.cancelled tid ∈ s.log) → end_ ≤ s.current ∨ doneCount s.pcs = n) ∧
  (∀ (w id : Nat), s.pcs[w]? = some (PC.call id) → start ≤ id ∧ id < end_) ∧
  (∀ tid id, Event.invoked tid id ∈ s.log → start ≤ id ∧ id < end_) ∧
  (∀ l1 l2 tid, s.log = l1 ++ Event.cancelled tid :: l2 →
    ∀ t id, Event.fetched t id ∈ l2 → end_ ≤ id)


/-- Number of calls of the task in the log that raised. -/
def raisedCount {E : Type} (fn : Nat → Nat → Option E) (log : List (Event E)) : Nat :=
  log.countP (fun ev => match ev with
                        | Event.invoked tid id => (fn id tid).isSome
                        | _ => false)

/-- Number of writes `lastException = ...` in the log. -/
def recordedCount {E : Type} (log : List (Event E)) : Nat :=
  log.countP (fun ev => match ev with
                        | Event.recorded _ _ => true
                        | _ => false)

/-- The thread has caught a failure and has not written it to the slot yet. -/
def PC.beforeWrite {E : Type} : PC E → Bool
  | PC.caught _ => true
  | PC.locked _ => true
  | _ => false

/-- Bookkeeping of the writes to the slot: a call that raised `e` in thread `tid` has
been followed by the write of `e` by `tid`, or `tid` is in the handler on its way to
it; every write is that of a failure a call of the same thread raised; and the writes
plus the threads on their way to one are as many as the calls that raised. -/
def RecordInv {E : Type} (fn : Nat → Nat → Option E) (s : State E) : Prop :=
  (∀ tid id e, Event.invoked tid id ∈ s.log → fn id tid = some e →
      Event.recorded tid e ∈ s.log ∨ s.pcs[tid]? = some (PC.caught e) ∨
      s.pcs[tid]? = some (PC.locked e)) ∧
  (∀ tid e, Event.recorded tid e ∈ s.log →
      ∃ id, Event.invoked tid id ∈ s.log ∧ fn id tid = some e) ∧
  recordedCount s.log + s.pcs.countP PC.beforeWrite = raisedCount fn s.log

/-! ## Arithmetic of the result slots -/

theorem int_product_fits {query_count k : Nat} (hk : k < 2 ^ 31)
    (hq : query_count < 2 ^ 31) : query_count * k ≤ SIZE_MOD := by
  have h1 : query_count * k ≤ 2 ^ 31 * 2 ^ 31 :=
    Nat.mul_le_mul (Nat.le_of_lt hq) (Nat.le_of_lt hk)
  unfold SIZE_MOD
  omega

theorem slotIndex_eq {row k i qc : Nat} (hrow : row < qc) (hi : i < k)
    (hsize : qc * k ≤ SIZE_MOD) : slotIndex row k i = row * k + i := by
  unfold slotIndex
  have h1 : (row + 1) * k ≤ qc * k := Nat.mul_le_mul_right k hrow
  rw [Nat.add_mul] at h1
  exact Nat.mod_eq_of_lt (by omega)

theorem slotIndex_lt {row k i qc : Nat} (hrow : row < qc) (hi : i < k)
    (hsize : qc * k ≤ SIZE_MOD) : slotIndex row k i < qc * k := by
  rw [slotIndex_eq hrow hi hsize]
  have : (row + 1) * k ≤ qc * k := Nat.mul_le_mul_right k hrow
  rw [Nat.add_mul] at this
  omega

theorem slotIndex_inj {r1 r2 k i j qc : Nat} (h1 : r1 < qc) (h2 : r2 < qc)
    (hi : i < k) (hj : j < k) (hsize : qc * k ≤ SIZE_MOD)
    (h : slotIndex r1 k i = slotIndex r2 k j) : r1 = r2 ∧ i = j := by
  rw [slotIndex_eq h1 hi hsize, slotIndex_eq h2 hj hsize] at h
  have hk : 0 < k := by omega
  have e1 : (r1 * k + i) / k = r1 := by
    rw [Nat.mul_comm, Nat.mul_add_div hk, Nat.div_eq_of_lt hi]; rfl
  have e2 : (r2 * k + j) / k = r2 := by
    rw [Nat.mul_comm, Nat.mul_add_div hk, Nat.div_eq_of_lt hj]; rfl
  have hr : r1 = r2 := by rw [← e1, ← e2, h]
  subst hr
  exact ⟨rfl, by omega⟩

/-- C9. For a divisor `d ≠ 0` the constructor succeeds, and a call of the filter on a
label leaves the object unchanged and answers `true` exactly when `d` divides the
label; over the labels `0..9` divisor 2 accepts `0,2,4,6,8` and divisor 3 accepts
`0,3,6,9`; the check `label % 2 == 1` fires exactly on the labels divisor 2 rejects. -/
theorem pickDivisibleIds_spec (d : Nat) (hd : d ≠ 0) :
    (∃ f, PickDivisibleIds.make d = some f ∧ f.divisor = d ∧
      ∀ label, (f.call label).2 = f ∧ ((f.call label).1 = true ↔ d ∣ label)) ∧
    (List.range 10).filter (fun l => (PickDivisibleIds.call { divisor := 2 } l).1)
      = [0, 2, 4, 6, 8] ∧
    (List.range 10).filter (fun l => (PickDivisibleIds.call { divisor := 3 } l).1)
      = [0, 3, 6, 9] ∧
    (∀ label, oddLabelError label = true ↔
      (PickDivisibleIds.call { divisor := 2 } label).1 = false) := by
  refine ⟨⟨{ divisor := d }, ?_, rfl, ?_⟩, by decide, by decide, ?_⟩
  · simp [PickDivisibleIds.make, hd]
  · intro label
    refine ⟨rfl, ?_⟩
    simp [PickDivisibleIds.call, Nat.dvd_iff_mod_eq_zero]
  · intro label
    simp [oddLabelError, PickDivisibleIds.call]

/-- Witness for C9 at the divisor of `main`, `PickDivisibleIds(2)`. -/
theorem pickDivisibleIds_spec_witness :
    (∃ f, PickDivisibleIds.make 2 = some f ∧ f.divisor = 2 ∧
      ∀ label, (f.call label).2 = f ∧ ((f.call label).1 = true ↔ 2 ∣ label)) ∧
    (List.range 10).filter (fun l => (PickDivisibleIds.call { divisor := 2 } l).1)
      = [0, 2, 4, 6, 8] ∧
    (List.range 10).filter (fun l => (PickDivisibleIds.call { divisor := 3 } l).1)
      = [0, 3, 6, 9] ∧
    (∀ label, oddLabelError label = true ↔
      (PickDivisibleIds.call { divisor := 2 } label).1 = false) :=
  pickDivisibleIds_spec 2 (by decide)

/-! ## The query task -/

theorem copyRow_error {S L : Type} (k row : Nat) (result : List (S × L)) :
    ∀ (n i : Nat) (buf : ResultBuffer S L),
      ((copyRow k row result n i buf).2 = none ↔ (n = 0 ∨ i + n ≤ result.length)) ∧
      ((copyRow k row result n i buf).2 = some TaskError.out_of_range ↔
        (n ≠ 0 ∧ result.length < i + n)) := by
  intro n
  induction n with
  | zero => intro i buf; simp [copyRow]
  | succ n ih =>
    intro i buf
    unfold copyRow
    cases hres : result[i]? with
    | none =>
      have hlen : result.length ≤ i := by
        rcases Nat.lt_or_ge i result.length with h | h
        · rw [List.getElem?_eq_getElem h] at hres; cases hres
        · exact h
      simp only []
      constructor
      · constructor
        · intro h; cases h
        · intro h; omega
      · constructor
        · intro _; omega
        · intro _; trivial
    | some p =>
      have hlen : i < result.length := by
        rcases Nat.lt_or_ge i result.length with h | h
        · exact h
        · rw [List.getElem?_eq_none h] at hres; cases hres
      simp only []
      obtain ⟨h1, h2⟩ := ih (i + 1) ⟨buf.scores.set (slotIndex row k i) p.1, buf.neighbors.set (slotIndex row k i) p.2⟩
      constructor
      · rw [h1]; omega
      · rw [h2]; omega

theorem copyRow_other {S L : Type} (k row : Nat) (result : List (S × L)) :
    ∀ (n i : Nat) (buf : ResultBuffer S L) (slot : Nat),
      (∀ t, i ≤ t → t < i + n → t < result.length → slot ≠ slotIndex row k t) →
      (copyRow k row result n i buf).1.scores[slot]? = buf.scores[slot]? ∧
      (copyRow k row result n i buf).1.neighbors[slot]? = buf.neighbors[slot]? := by
  intro n
  induction n with
  | zero => intro i buf slot _; simp [copyRow]
  | succ n ih =>
    intro i buf slot hslot
    unfold copyRow
    cases hres : result[i]? with
    | none => simp
    | some p =>
      have hlen : i < result.length := by
        rcases Nat.lt_or_ge i result.length with h | h
        · exact h
        · rw [List.getElem?_eq_none h] at hres; cases hres
      simp only []
      obtain ⟨h1, h2⟩ := ih (i + 1) ⟨buf.scores.set (slotIndex row k i) p.1, buf.neighbors.set (slotIndex row k i) p.2⟩
        slot (fun t ht1 ht2 ht3 => hslot t (by omega) (by omega) ht3)
      have hne : slotIndex row k i ≠ slot := fun h => hslot i (by omega) (by omega) hlen h.symm
      rw [h1, h2]
      simp only []
      rw [List.getElem?_set_ne hne, List.getElem?_set_ne hne]
      exact ⟨rfl, rfl⟩

theorem copyRow_written {S L : Type} (k row qc : Nat) (result : List (S × L))
    (hrow : row < qc) (hsize : qc * k ≤ SIZE_MOD) :
    ∀ (n i : Nat) (buf : ResultBuffer S L), i + n ≤ k →
      buf.scores.length = qc * k → buf.neighbors.length = qc * k →
      ∀ t, i ≤ t → t < i + n → t < result.length →
        (copyRow k row result n i buf).1.scores[slotIndex row k t]?
          = (result[t]?).map Prod.fst ∧
        (copyRow k row result n i buf).1.neighbors[slotIndex row k t]?
          = (result[t]?).map Prod.snd := by
  intro n
  induction n with
  | zero => intro i buf _ _ _ t h1 h2 _; omega
  | succ n ih =>
    intro i buf hk hs hn t ht1 ht2 ht3
    unfold copyRow
    have hlen : i < result.length := by omega
    have hres : result[i]? = some result[i] := List.getElem?_eq_getElem hlen
    rw [hres]
    simp only []
    rcases Nat.eq_or_lt_of_le ht1 with heq | hlt
    · subst heq
      obtain ⟨h1, h2⟩ := copyRow_other k row result n (i + 1)
        ⟨buf.scores.set (slotIndex row k i) result[i].1,
          buf.neighbors.set (slotIndex row k i) result[i].2⟩
        (slotIndex row k i)
        (fun t ht1 ht2 _ h => by
          have := (slotIndex_inj hrow hrow (by omega) (by omega) hsize h).2
          omega)
      have hb : slotIndex row k i < qc * k := slotIndex_lt hrow (by omega) hsize
      rw [h1, h2, hres]
      simp only []
      rw [List.getElem?_set_self (by omega), List.getElem?_set_self (by omega)]
      exact ⟨rfl, rfl⟩
    · exact ih (i + 1) _ (by omega) (by simpa using hs) (by simpa using hn) t
        (by omega) (by omega) ht3

/-- C7 as the code has it. For `int` values `k` and `query_count`, `row < query_count`,
buffers of size `query_count * k` and a search result of length `m`: the task
completes without raising exactly when `k ≤ m`, and raises `std::out_of_range` exactly
when `m < k`; in both cases the first `min m k` entries are copied to
`scores[row*k+i]` and `neighbors[row*k+i]` and every other slot keeps its value. -/
theorem queryTask_spec {S L : Type} (query_count k row : Nat) (result : List (S × L))
    (buf : ResultBuffer S L) (hrow : row < query_count)
    (hkint : k < 2 ^ 31) (hqint : query_count < 2 ^ 31)
    (hscores : buf.scores.length = query_count * k)
    (hneighbors : buf.neighbors.length = query_count * k) :
    ((queryTask k row result buf).2 = none ↔ k ≤ result.length) ∧
    ((queryTask k row result buf).2 = some TaskError.out_of_range ↔ result.length < k) ∧
    (∀ i, i < k → i < result.length →
      (queryTask k row result buf).1.scores[slotIndex row k i]?
        = (result[i]?).map Prod.fst ∧
      (queryTask k row result buf).1.neighbors[slotIndex row k i]?
        = (result[i]?).map Prod.snd) ∧
    (∀ slot, (∀ i, i < k → i < result.length → slot ≠ slotIndex row k i) →
      (queryTask k row result buf).1.scores[slot]? = buf.scores[slot]? ∧
      (queryTask k row result buf).1.neighbors[slot]? = buf.neighbors[slot]?) := by
  unfold queryTask
  have hsize := int_product_fits hkint hqint
  obtain ⟨e1, e2⟩ := copyRow_error k row result k 0 buf
  refine ⟨?_, ?_, ?_, ?_⟩
  · rw [e1]; omega
  · rw [e2]; omega
  · intro i hi hlen
    exact copyRow_written k row query_count result hrow hsize k 0 buf (by omega)
      hscores hneighbors i (by omega) (by omega) hlen
  · intro slot hslot
    exact copyRow_other k row result k 0 buf slot
      (fun t _ ht2 ht3 => hslot t (by omega) ht3)

/-- Counterexample to C7 as stated: with `k = 2` and a search result of length 1 the
task copies the one entry and then raises `std::out_of_range`. -/
theorem queryTask_short_row_raises :
    ([((5 : Nat), (7 : Nat))]).length ≤ 2 ∧
    queryTask 2 0 [((5 : Nat), (7 : Nat))] ⟨[0, 0], [0, 0]⟩
      = (⟨[5, 0], [7, 0]⟩, some TaskError.out_of_range) := by
  decide

/-- Witness for C7 as the code has it: row 1 of a batch of two queries with `k = 2`. -/
theorem queryTask_spec_witness :
    ((queryTask 2 1 [((5 : Nat), (7 : Nat)), (6, 8)] ⟨[0, 0, 0, 0], [0, 0, 0, 0]⟩).2 = none
      ↔ 2 ≤ ([((5 : Nat), (7 : Nat)), (6, 8)]).length) ∧
    (queryTask 2 1 [((5 : Nat), (7 : Nat)), (6, 8)] ⟨[0, 0, 0, 0], [0, 0, 0, 0]⟩)
      = (⟨[0, 0, 5, 6], [0, 0, 7, 8]⟩, none) :=
  ⟨(queryTask_spec 2 2 1 [((5 : Nat), (7 : Nat)), (6, 8)] ⟨[0, 0, 0, 0], [0, 0, 0, 0]⟩
      (by decide) (by decide) (by decide) (by decide) (by decide)).1, by decide⟩

/-! ## The sequential branch -/

theorem seqLoop_spec {E : Type} (end_ : Nat) (fn : Nat → Nat → Option E)
    (hend : end_ < SIZE_MOD) :
    ∀ (fuel id : Nat) (log : List (Event E)), id ≤ end_ → end_ - id < fuel →
      ∃ n, n ≤ end_ - id ∧ (∀ i, id ≤ i → i + 1 < id + n → fn i 0 = none) ∧
        ((seqLoop end_ fn fuel id log
            = some ⟨log ++ (List.range' id n).map (Event.invoked 0), Outcome.returned⟩ ∧
          n = end_ - id ∧ ∀ i, id ≤ i → i < end_ → fn i 0 = none) ∨
         (∃ e, seqLoop end_ fn fuel id log
            = some ⟨log ++ (List.range' id n).map (Event.invoked 0), Outcome.raised e⟩ ∧
          1 ≤ n ∧ fn (id + n - 1) 0 = some e)) := by
  intro fuel
  induction fuel with
  | zero => intro id log _ h; omega
  | succ fuel ih =>
    intro id log hid hfuel
    unfold seqLoop
    by_cases hlt : id < end_
    · rw [if_pos hlt]
      cases hfn : fn id 0 with
      | some e =>
        refine ⟨1, by omega, fun i h1 h2 => by omega, Or.inr ⟨e, ?_, le_refl _, ?_⟩⟩
        · simp
        · simpa using hfn
      | none =>
        have hmod : (id + 1) % SIZE_MOD = id + 1 := Nat.mod_eq_of_lt (by omega)
        simp only [hmod]
        obtain ⟨n, hn, hpre, hcase⟩ :=
          ih (id + 1) (log ++ [Event.invoked 0 id]) (by omega) (by omega)
        have hlog : log ++ [Event.invoked 0 id] ++
              (List.range' (id + 1) n).map (Event.invoked 0)
            = log ++ (List.range' id (n + 1)).map (Event.invoked (E := E) 0) := by
          simp [List.range'_succ]
        have hpre2 : ∀ i, id ≤ i → i + 1 < id + (n + 1) → fn i 0 = none := by
          intro i h1 h2
          rcases Nat.eq_or_lt_of_le h1 with h | h
          · rw [← h]; exact hfn
          · exact hpre i (by omega) (by omega)
        refine ⟨n + 1, by omega, hpre2, ?_⟩
        rcases hcase with ⟨h1, h2, h3⟩ | ⟨e, h1, h2, h3⟩
        · refine Or.inl ⟨by rw [h1, hlog], by omega, ?_⟩
          intro i hi1 hi2
          rcases Nat.eq_or_lt_of_le hi1 with h | h
          · rw [← h]; exact hfn
          · exact h3 i (by omega) hi2
        · refine Or.inr ⟨e, by rw [h1, hlog], by omega, ?_⟩
          have : id + (n + 1) - 1 = id + 1 + n - 1 := by omega
          rw [this]; exact h3
    · rw [if_neg hlt]
      have : end_ - id = 0 := by omega
      refine ⟨0, by omega, fun i h1 h2 => by omega, Or.inl ⟨by simp, by omega, ?_⟩⟩
      intro i h1 h2; omega

theorem ParallelFor_one {E : Type} (hw start end_ : Nat) (fn : Nat → Nat → Option E)
    (sched : List Nat) :
    ParallelFor hw start end_ 1 fn sched = seqLoop end_ fn (end_ - start + 1) start [] := by
  simp [ParallelFor, resolveThreads]

/-- C2. With `numThreads = 1` and `start ≤ end`, `ParallelFor` returns a result whatever
the schedule; the task is invoked with slot 0 on `start, start+1, ..., start+n-1` in this
order, each once; either no call raised, `n = end - start` and the call returns, or the
last index visited is the first on which the task raises and that failure is raised
to the caller. -/
theorem sequential_path {E : Type} (hw start end_ : Nat) (fn : Nat → Nat → Option E)
    (sched : List Nat) (hle : start ≤ end_) (hend : end_ < SIZE_MOD) :
    ∃ n r, ParallelFor hw start end_ 1 fn sched = some r ∧
      r.log = (List.range' start n).map (Event.invoked 0) ∧
      n ≤ end_ - start ∧
      (∀ i, start ≤ i → i + 1 < start + n → fn i 0 = none) ∧
      ((r.outcome = Outcome.returned ∧ n = end_ - start ∧
          ∀ i, start ≤ i → i < end_ → fn i 0 = none) ∨
       (∃ e, r.outcome = Outcome.raised e ∧ 1 ≤ n ∧ fn (start + n - 1) 0 = some e)) := by
  rw [ParallelFor_one]
  obtain ⟨n, hn, hpre, hcase⟩ :=
    seqLoop_spec end_ fn hend (end_ - start + 1) start [] hle (by omega)
  rcases hcase with ⟨h1, h2, h3⟩ | ⟨e, h1, h2, h3⟩
  · exact ⟨n, _, h1, by simp, hn, hpre, Or.inl ⟨rfl, h2, h3⟩⟩
  · exact ⟨n, _, h1, by simp, hn, hpre, Or.inr ⟨e, rfl, h2, h3⟩⟩

/-- Witness for C2: the range `[2, 6)` with a task that raises on index 4. -/
theorem sequential_path_witness :
    ∃ n r, ParallelFor 8 2 6 1 (fun id _ => if id = 4 then some id else none) [] = some r ∧
      r.log = (List.range' 2 n).map (Event.invoked 0) ∧
      n ≤ 6 - 2 ∧
      (∀ i, 2 ≤ i → i + 1 < 2 + n →
        (fun id (_ : Nat) => if id = 4 then some id else none) i 0 = none) ∧
      ((r.outcome = Outcome.returned ∧ n = 6 - 2 ∧
          ∀ i, 2 ≤ i → i < 6 →
            (fun id (_ : Nat) => if id = 4 then some id else none) i 0 = none) ∨
       (∃ e, r.outcome = Outcome.raised e ∧ 1 ≤ n ∧
          (fun id (_ : Nat) => if id = 4 then some id else none) (2 + n - 1) 0 = some e)) :=
  sequential_path 8 2 6 (fun id _ => if id = 4 then some id else none) [] (by decide)
    (by decide)

/-! ## The multi-threaded branch: basic facts about `step` and `exec` -/

theorem getElem?_set_of_some {α : Type} {l : List α} {t : Nat} {p : α}
    (h : l[t]? = some p) (q : α) (w : Nat) :
    (l.set t q)[w]? = if w = t then some q else l[w]? := by
  have hlt : t < l.length := by
    rcases Nat.lt_or_ge t l.length with h1 | h1
    · exact h1
    · rw [List.getElem?_eq_none h1] at h; cases h
  rw [List.getElem?_set]
  by_cases hw : w = t
  · subst hw; simp [hlt]
  · have : ¬ t = w := fun e => hw e.symm
    simp [hw, this]

theorem lt_length_of_getElem? {α : Type} {l : List α} {t : Nat} {p : α}
    (h : l[t]? = some p) : t < l.length := by
  rcases Nat.lt_or_ge t l.length with h1 | h1
  · exact h1
  · rw [List.getElem?_eq_none h1] at h; cases h

/-- Inversion of `step`: the five kinds of action and the state each produces. -/
theorem step_cases {E : Type} {end_ : Nat} {fn : Nat → Nat → Option E}
    {s s' : State E} {tid : Nat} (h : step end_ fn s tid = some s') :
    (s.pcs[tid]? = some PC.fetch ∧
      s' = { s with current := (s.current + 1) % SIZE_MOD
                    pcs := s.pcs.set tid (if s.current ≥ end_ then PC.done
                                          else PC.call s.current)
                    log := s.log ++ [Event.fetched tid s.current] }) ∨
    (∃ id, s.pcs[tid]? = some (PC.call id) ∧
      s' = { s with pcs := s.pcs.set tid (match fn id tid with
                                          | none => PC.fetch
                                          | some e => PC.caught e)
                    log := s.log ++ [Event.invoked tid id] }) ∨
    (∃ e, s.pcs[tid]? = some (PC.caught e) ∧ s.lastExceptMutex = false ∧
      s' = { s with lastExceptMutex := true, pcs := s.pcs.set tid (PC.locked e) }) ∨
    (∃ e, s.pcs[tid]? = some (PC.locked e) ∧
      s' = { s with lastException := some e
                    pcs := s.pcs.set tid PC.store
                    log := s.log ++ [Event.recorded tid e] }) ∨
    (s.pcs[tid]? = some PC.store ∧
      s' = { s with current := end_
                    lastExceptMutex := false
                    pcs := s.pcs.set tid PC.done
                    log := s.log ++ [Event.cancelled tid] }) := by
  unfold step at h
  split at h
  · cases h
  · next hp => left; exact ⟨hp, by injection h with h; exact h.symm⟩
  · next id hp => right; left; exact ⟨id, hp, by injection h with h; exact h.symm⟩
  · next e hp =>
    right; right; left
    split at h
    · cases h
    · next hm => exact ⟨e, hp, by simpa using hm, by injection h with h; exact h.symm⟩
  · next e hp => right; right; right; left; exact ⟨e, hp, by injection h with h; exact h.symm⟩
  · next hp => right; right; right; right; exact ⟨hp, by injection h with h; exact h.symm⟩
  · cases h

theorem exec_append {E : Type} (end_ : Nat) (fn : Nat → Nat → Option E) :
    ∀ (a b : List Nat) (s : State E),
      exec end_ fn s (a ++ b) = (exec end_ fn s a).bind (fun s' => exec end_ fn s' b) := by
  intro a
  induction a with
  | nil => intro b s; simp [exec]
  | cons t a ih =>
    intro b s
    simp only [List.cons_append, exec]
    cases step end_ fn s t with
    | none => simp
    | some s' => simp [ih]

/-- A property kept by every action holds after every schedule. -/
theorem exec_invariant {E : Type} {end_ : Nat} {fn : Nat → Nat → Option E}
    (P : State E → Prop)
    (hstep : ∀ s s' tid, P s → step end_ fn s tid = some s' → P s') :
    ∀ (sched : List Nat) (s s' : State E), P s → exec end_ fn s sched = some s' → P s' := by
  intro sched
  induction sched with
  | nil => intro s s' hP h; simp [exec] at h; subst h; exact hP
  | cons t rest ih =>
    intro s s' hP h
    simp only [exec] at h
    cases hs : step end_ fn s t with
    | none => rw [hs] at h; cases h
    | some s1 => rw [hs] at h; exact ih s1 s' (hstep s s1 t hP hs) h

theorem WF_initState {E : Type} (start numThreads : Nat) (hstart : start < SIZE_MOD) :
    WF (initState (E := E) start numThreads) := by
  refine ⟨hstart, ?_⟩
  intro h
  simp [initState] at h

theorem WF_step {E : Type} {end_ : Nat} {fn : Nat → Nat → Option E}
    (hend : end_ < SIZE_MOD) (s s' : State E) (tid : Nat) (hwf : WF s)
    (h : step end_ fn s tid = some s') : WF s' := by
  obtain ⟨hcur, hmx⟩ := hwf
  rcases step_cases h with ⟨hp, rfl⟩ | ⟨id, hp, rfl⟩ | ⟨e, hp, hm, rfl⟩ | ⟨e, hp, rfl⟩ |
    ⟨hp, rfl⟩
  · refine ⟨Nat.mod_lt _ (by unfold SIZE_MOD; omega), ?_⟩
    intro hheld
    obtain ⟨w, p, hw, hh⟩ := hmx hheld
    refine ⟨w, p, ?_, hh⟩
    show (s.pcs.set tid _)[w]? = some p
    rw [getElem?_set_of_some hp]
    have : w ≠ tid := by
      rintro rfl
      rw [hp] at hw; cases hw; simp [PC.holdsMutex] at hh
    simp [this, hw]
  · refine ⟨hcur, ?_⟩
    intro hheld
    obtain ⟨w, p, hw, hh⟩ := hmx hheld
    refine ⟨w, p, ?_, hh⟩
    show (s.pcs.set tid _)[w]? = some p
    rw [getElem?_set_of_some hp]
    have : w ≠ tid := by
      rintro rfl
      rw [hp] at hw; cases hw; simp [PC.holdsMutex] at hh
    simp [this, hw]
  · refine ⟨hcur, fun _ => ⟨tid, PC.locked e, ?_, rfl⟩⟩
    show (s.pcs.set tid _)[tid]? = _
    rw [getElem?_set_of_some hp]; simp
  · refine ⟨hcur, fun _ => ⟨tid, PC.store, ?_, rfl⟩⟩
    show (s.pcs.set tid _)[tid]? = _
    rw [getElem?_set_of_some hp]; simp
  · refine ⟨hend, ?_⟩
    intro hheld
    simp at hheld

theorem WF_exec {E : Type} {end_ : Nat} {fn : Nat → Nat → Option E}
    (hend : end_ < SIZE_MOD) (sched : List Nat) (s s' : State E) (hwf : WF s)
    (h : exec end_ fn s sched = some s') : WF s' :=
  exec_invariant WF (fun a b t => WF_step hend a b t) sched s s' hwf h

theorem set_self_of_getElem? {α : Type} {l : List α} {t : Nat} {p : α}
    (h : l[t]? = some p) : l.set t p = l := by
  apply List.ext_getElem?
  intro i
  rw [getElem?_set_of_some h]
  by_cases hi : i = t
  · subst hi; simp [h]
  · simp [hi]

/-- A thread that runs alone from a state where it is not blocked reaches the end of
its thread function, leaving the mutex free and the other threads where they were. -/
theorem runWorker {E : Type} {end_ : Nat} (fn : Nat → Nat → Option E)
    (hend : end_ < SIZE_MOD) :
    ∀ (n : Nat) (s : State E) (w : Nat), workMeasure s w ≤ n → w < s.pcs.length →
      s.current < SIZE_MOD →
      (s.lastExceptMutex = false ∨ ∃ p, s.pcs[w]? = some p ∧ p.holdsMutex = true) →
      ∃ sched s', exec end_ fn s sched = some s' ∧ s'.pcs = s.pcs.set w PC.done ∧
        s'.lastExceptMutex = false ∧ s'.current < SIZE_MOD := by
  intro n
  induction n with
  | zero =>
    intro s w hm hw hcur hmx
    have hget : s.pcs[w]? = some s.pcs[w] := List.getElem?_eq_getElem hw
    unfold workMeasure at hm
    rw [hget] at hm
    cases hp : s.pcs[w] with
    | fetch => rw [hp] at hm; simp at hm
    | call id => rw [hp] at hm; simp at hm
    | caught e => rw [hp] at hm; simp at hm
    | locked e => rw [hp] at hm; simp at hm
    | store => rw [hp] at hm; simp at hm
    | done =>
      rw [hp] at hget
      refine ⟨[], s, rfl, (set_self_of_getElem? hget).symm, ?_, hcur⟩
      rcases hmx with h | ⟨p, h1, h2⟩
      · exact h
      · rw [hget] at h1; cases h1; simp [PC.holdsMutex] at h2
  | succ n ih =>
    intro s w hm hw hcur hmx
    have hget : s.pcs[w]? = some s.pcs[w] := List.getElem?_eq_getElem hw
    have key : ∀ s1 : State E, step end_ fn s w = some s1 → workMeasure s1 w ≤ n →
        s1.current < SIZE_MOD →
        (s1.lastExceptMutex = false ∨ ∃ p, s1.pcs[w]? = some p ∧ p.holdsMutex = true) →
        s1.pcs.length = s.pcs.length → s1.pcs.set w PC.done = s.pcs.set w PC.done →
        ∃ sched s', exec end_ fn s sched = some s' ∧ s'.pcs = s.pcs.set w PC.done ∧
          s'.lastExceptMutex = false ∧ s'.current < SIZE_MOD := by
      intro s1 hstep hm1 hcur1 hmx1 hlen hset
      obtain ⟨sched, s', h1, h2, h3, h4⟩ := ih s1 w hm1 (by rw [hlen]; exact hw) hcur1 hmx1
      refine ⟨w :: sched, s', ?_, ?_, h3, h4⟩
      · simp only [exec, hstep]; exact h1
      · rw [h2, hset]
    unfold workMeasure at hm
    rw [hget] at hm
    cases hp : s.pcs[w] with
    | done =>
      rw [hp] at hget
      refine ⟨[], s, rfl, (set_self_of_getElem? hget).symm, ?_, hcur⟩
      rcases hmx with h | ⟨p, h1, h2⟩
      · exact h
      · rw [hget] at h1; cases h1; simp [PC.holdsMutex] at h2
    | fetch =>
      rw [hp] at hget hm
      have hfree : s.lastExceptMutex = false := by
        rcases hmx with h | ⟨p, h1, h2⟩
        · exact h
        · rw [hget] at h1; cases h1; simp [PC.holdsMutex] at h2
      have hstep : step end_ fn s w = some
          { s with current := (s.current + 1) % SIZE_MOD
                   pcs := s.pcs.set w (if s.current ≥ end_ then PC.done
                                       else PC.call s.current)
                   log := s.log ++ [Event.fetched w s.current] } := by
        simp [step, hget]
      have hMpos : 0 < SIZE_MOD := by unfold SIZE_MOD; omega
      refine key _ hstep ?_ (Nat.mod_lt _ hMpos) (Or.inl hfree) (by simp) (by simp)
      unfold workMeasure
      dsimp only
      rw [List.getElem?_set_self hw]
      by_cases hge : s.current ≥ end_
      · simp [hge]
      · have hmod : (s.current + 1) % SIZE_MOD = s.current + 1 :=
          Nat.mod_eq_of_lt (by omega)
        simp only [hge, if_false, hmod]
        simp only [] at hm
        omega
    | call id =>
      rw [hp] at hget hm
      have hfree : s.lastExceptMutex = false := by
        rcases hmx with h | ⟨p, h1, h2⟩
        · exact h
        · rw [hget] at h1; cases h1; simp [PC.holdsMutex] at h2
      have hstep : step end_ fn s w = some
          { s with pcs := s.pcs.set w (match fn id w with
                                       | none => PC.fetch
                                       | some e => PC.caught e)
                   log := s.log ++ [Event.invoked w id] } := by
        simp [step, hget]
      refine key _ hstep ?_ hcur (Or.inl hfree) (by simp) (by simp)
      unfold workMeasure
      dsimp only
      rw [List.getElem?_set_self hw]
      simp only [] at hm
      cases fn id w with
      | none => simp only []; omega
      | some e => simp only []; omega
    | caught e =>
      rw [hp] at hget hm
      have hfree : s.lastExceptMutex = false := by
        rcases hmx with h | ⟨p, h1, h2⟩
        · exact h
        · rw [hget] at h1; cases h1; simp [PC.holdsMutex] at h2
      have hstep : step end_ fn s w = some
          { s with lastExceptMutex := true, pcs := s.pcs.set w (PC.locked e) } := by
        simp [step, hget, hfree]
      refine key _ hstep ?_ hcur
        (Or.inr ⟨PC.locked e, by dsimp only; rw [List.getElem?_set_self hw], rfl⟩)
        (by simp) (by simp)
      unfold workMeasure
      dsimp only
      rw [List.getElem?_set_self hw]
      simp only [] at hm ⊢
      omega
    | locked e =>
      rw [hp] at hget hm
      have hstep : step end_ fn s w = some
          { s with lastException := some e
                   pcs := s.pcs.set w PC.store
                   log := s.log ++ [Event.recorded w e] } := by
        simp [step, hget]
      refine key _ hstep ?_ hcur
        (Or.inr ⟨PC.store, by dsimp only; rw [List.getElem?_set_self hw], rfl⟩)
        (by simp) (by simp)
      unfold workMeasure
      dsimp only
      rw [List.getElem?_set_self hw]
      simp only [] at hm ⊢
      omega
    | store =>
      rw [hp] at hget
      have hstep : step end_ fn s w = some
          { s with current := end_
                   lastExceptMutex := false
                   pcs := s.pcs.set w PC.done
                   log := s.log ++ [Event.cancelled w] } := by
        simp [step, hget]
      exact ⟨[w], { s with current := end_
                           lastExceptMutex := false
                           pcs := s.pcs.set w PC.done
                           log := s.log ++ [Event.cancelled w] },
        by simp only [exec, hstep], rfl, rfl, hend⟩

/-- From a well-formed state some schedule lets every thread return. -/
theorem complete_from {E : Type} {end_ : Nat} (fn : Nat → Nat → Option E)
    (hend : end_ < SIZE_MOD) (s : State E) (hwf : WF s) :
    ∃ sched s', exec end_ fn s sched = some s' ∧ allDone s' = true := by
  -- first let the owner of the mutex, if any, leave the handler
  have h0 : ∃ sched0 s0, exec end_ fn s sched0 = some s0 ∧ s0.lastExceptMutex = false ∧
      s0.current < SIZE_MOD := by
    cases hm : s.lastExceptMutex with
    | false => exact ⟨[], s, rfl, hm, hwf.1⟩
    | true =>
      obtain ⟨w, p, hp, hh⟩ := hwf.2 hm
      obtain ⟨sched, s', h1, _, h3, h4⟩ := runWorker fn hend (workMeasure s w) s w (le_refl _)
        (lt_length_of_getElem? hp) hwf.1 (Or.inr ⟨p, hp, hh⟩)
      exact ⟨sched, s', h1, h3, h4⟩
  obtain ⟨sched0, s0, hex0, hfree0, hcur0⟩ := h0
  -- then run the threads to completion one after the other
  have iter : ∀ k, k ≤ s0.pcs.length → ∃ sched s', exec end_ fn s0 sched = some s' ∧
      s'.lastExceptMutex = false ∧ s'.current < SIZE_MOD ∧ s'.pcs.length = s0.pcs.length ∧
      ∀ w, w < k → s'.pcs[w]? = some PC.done := by
    intro k
    induction k with
    | zero => intro _; exact ⟨[], s0, rfl, hfree0, hcur0, rfl, fun w hw => by omega⟩
    | succ k ih =>
      intro hk
      obtain ⟨sched1, s1, hex1, hfree1, hcur1, hlen1, hdone1⟩ := ih (by omega)
      obtain ⟨sched2, s2, hex2, hpcs2, hfree2, hcur2⟩ :=
        runWorker fn hend (workMeasure s1 k) s1 k (le_refl _) (by omega) hcur1
          (Or.inl hfree1)
      refine ⟨sched1 ++ sched2, s2, ?_, hfree2, hcur2, ?_, ?_⟩
      · rw [exec_append, hex1]; exact hex2
      · rw [hpcs2, List.length_set, hlen1]
      · intro w hw
        rw [hpcs2]
        by_cases hwk : w = k
        · subst hwk; exact List.getElem?_set_self (by omega)
        · rw [List.getElem?_set_ne (fun e => hwk e.symm)]
          exact hdone1 w (by omega)
  obtain ⟨sched1, s1, hex1, _, _, hlen1, hdone1⟩ := iter s0.pcs.length (le_refl _)
  refine ⟨sched0 ++ sched1, s1, ?_, ?_⟩
  · rw [exec_append, hex0]; exact hex1
  · unfold allDone
    rw [List.all_eq_true]
    intro p hp
    obtain ⟨i, hi⟩ := List.mem_iff_getElem?.mp hp
    have := hdone1 i (by rw [← hlen1]; exact lt_length_of_getElem? hi)
    rw [hi] at this
    cases this
    rfl

theorem ParallelFor_multi {E : Type} (hw start end_ numThreads : Nat)
    (fn : Nat → Nat → Option E) (sched : List Nat)
    (hne : resolveThreads hw numThreads ≠ 1) :
    ParallelFor hw start end_ numThreads fn sched =
      (exec end_ fn (initState start (resolveThreads hw numThreads)) sched).bind
        (fun s => if allDone s then some { log := s.log, outcome := joinOutcome s }
                  else none) := by
  unfold ParallelFor
  simp only [hne, if_false]
  cases exec end_ fn (initState start (resolveThreads hw numThreads)) sched with
  | none => rfl
  | some s => rfl

theorem ParallelFor_seq {E : Type} (hw start end_ numThreads : Nat)
    (fn : Nat → Nat → Option E) (sched : List Nat)
    (h1 : resolveThreads hw numThreads = 1) :
    ParallelFor hw start end_ numThreads fn sched
      = seqLoop end_ fn (end_ - start + 1) start [] := by
  unfold ParallelFor
  simp only [h1, if_true]

/-- A complete multi-threaded run, read back as a final state of `exec`. -/
theorem ParallelFor_multi_some {E : Type} {hw start end_ numThreads : Nat}
    {fn : Nat → Nat → Option E} {sched : List Nat} {r : Run E}
    (hne : resolveThreads hw numThreads ≠ 1)
    (h : ParallelFor hw start end_ numThreads fn sched = some r) :
    ∃ s, exec end_ fn (initState start (resolveThreads hw numThreads)) sched = some s ∧
      allDone s = true ∧ r = { log := s.log, outcome := joinOutcome s } := by
  rw [ParallelFor_multi _ _ _ _ _ _ hne] at h
  cases hex : exec end_ fn (initState start (resolveThreads hw numThreads)) sched with
  | none => rw [hex] at h; cases h
  | some s =>
    rw [hex] at h
    simp only [Option.bind] at h
    by_cases hd : allDone s = true
    · rw [if_pos hd] at h
      exact ⟨s, rfl, hd, by injection h with h; exact h.symm⟩
    · rw [if_neg hd] at h; cases h

/-- Termination: `ParallelFor` has a result on a schedule that extends any given
partial interleaving of the threads. -/
theorem ParallelFor_completes {E : Type} (hw start end_ numThreads : Nat)
    (fn : Nat → Nat → Option E) (hstart : start < SIZE_MOD) (hend : end_ < SIZE_MOD)
    (sched : List Nat) (s : State E)
    (h : exec end_ fn (initState start (resolveThreads hw numThreads)) sched = some s) :
    ∃ rest r, ParallelFor hw start end_ numThreads fn (sched ++ rest) = some r := by
  by_cases h1 : resolveThreads hw numThreads = 1
  · refine ⟨[], ?_⟩
    rw [ParallelFor_seq _ _ _ _ _ _ h1]
    rcases Nat.le_total start end_ with hle | hge
    · obtain ⟨n, _, _, hcase⟩ :=
        seqLoop_spec end_ fn hend (end_ - start + 1) start [] hle (by omega)
      rcases hcase with ⟨h1, _⟩ | ⟨e, h1, _⟩
      · exact ⟨_, h1⟩
      · exact ⟨_, h1⟩
    · have h0 : end_ - start = 0 := by omega
      rw [h0]
      refine ⟨{ log := [], outcome := Outcome.returned }, ?_⟩
      unfold seqLoop
      rw [if_neg (by omega)]
  · have hwf : WF s := WF_exec hend sched _ s (WF_initState start _ hstart) h
    obtain ⟨rest, s', hex, hd⟩ := complete_from fn hend s hwf
    refine ⟨rest, { log := s'.log, outcome := joinOutcome s' }, ?_⟩
    rw [ParallelFor_multi _ _ _ _ _ _ h1, exec_append, h]
    simp only [Option.bind]
    rw [hex]
    simp [hd]

/-! ## Every interleaving is finite -/

theorem sum_map_set {α : Type} (f : α → Nat) :
    ∀ (l : List α) (t : Nat) (p q : α), l[t]? = some p →
      ((l.set t q).map f).sum + f p = (l.map f).sum + f q := by
  intro l
  induction l with
  | nil => intro t p q h; simp at h
  | cons a l ih =>
    intro t p q h
    cases t with
    | zero =>
      simp only [List.getElem?_cons_zero] at h
      injection h with h
      subst h
      simp only [List.set_cons_zero, List.map_cons, List.sum_cons]
      omega
    | succ t =>
      simp only [List.getElem?_cons_succ] at h
      simp only [List.set_cons_succ, List.map_cons, List.sum_cons]
      have := ih t p q h
      omega

theorem potential_step {E : Type} {end_ : Nat} {fn : Nat → Nat → Option E}
    (hend : end_ < SIZE_MOD) (s s' : State E) (tid : Nat) (hcur : s.current < SIZE_MOD)
    (h : step end_ fn s tid = some s') : potential s' < potential s := by
  have hM : 0 < SIZE_MOD := by unfold SIZE_MOD; omega
  rcases step_cases h with ⟨hp, rfl⟩ | ⟨id, hp, rfl⟩ | ⟨e, hp, hm, rfl⟩ | ⟨e, hp, rfl⟩ |
    ⟨hp, rfl⟩
  · unfold potential
    dsimp only
    by_cases hge : s.current ≥ end_
    · have hsum := sum_map_set (pcWeight (E := E)) s.pcs tid PC.fetch PC.done hp
      have hmod : (s.current + 1) % SIZE_MOD < SIZE_MOD := Nat.mod_lt _ hM
      simp only [hge, if_true]
      simp only [pcWeight] at hsum
      omega
    · have hsum := sum_map_set (pcWeight (E := E)) s.pcs tid PC.fetch (PC.call s.current) hp
      have hmod : (s.current + 1) % SIZE_MOD = s.current + 1 := Nat.mod_eq_of_lt (by omega)
      simp only [hge, if_false, hmod]
      simp only [pcWeight] at hsum
      omega
  · unfold potential
    dsimp only
    cases hfn : fn id tid with
    | none =>
      have hsum := sum_map_set (pcWeight (E := E)) s.pcs tid (PC.call id) PC.fetch hp
      simp only [pcWeight] at hsum
      simp only []
      omega
    | some e =>
      have hsum := sum_map_set (pcWeight (E := E)) s.pcs tid (PC.call id) (PC.caught e) hp
      simp only [pcWeight] at hsum
      simp only []
      omega
  · unfold potential
    dsimp only
    have hsum := sum_map_set (pcWeight (E := E)) s.pcs tid (PC.caught e) (PC.locked e) hp
    simp only [pcWeight] at hsum
    omega
  · unfold potential
    dsimp only
    have hsum := sum_map_set (pcWeight (E := E)) s.pcs tid (PC.locked e) PC.store hp
    simp only [pcWeight] at hsum
    omega
  · unfold potential
    dsimp only
    have hsum := sum_map_set (pcWeight (E := E)) s.pcs tid PC.store PC.done hp
    simp only [pcWeight] at hsum
    omega

theorem exec_length_potential {E : Type} {end_ : Nat} {fn : Nat → Nat → Option E}
    (hend : end_ < SIZE_MOD) :
    ∀ (sched : List Nat) (s s' : State E), WF s → exec end_ fn s sched = some s' →
      sched.length + potential s' ≤ potential s := by
  intro sched
  induction sched with
  | nil => intro s s' _ h; simp [exec] at h; subst h; simp
  | cons t rest ih =>
    intro s s' hwf h
    simp only [exec] at h
    cases hs : step end_ fn s t with
    | none => rw [hs] at h; cases h
    | some s1 =>
      rw [hs] at h
      have h1 := potential_step hend s s1 t hwf.1 hs
      have h2 := ih s1 s' (WF_step hend s s1 t hwf hs) h
      simp only [List.length_cons]
      omega

theorem potential_initState {E : Type} (start n : Nat) :
    potential (initState (E := E) start n) = runBound start n := by
  unfold potential initState runBound
  simp [pcWeight]

/-- Every interleaving of the threads of one call, complete or not, has at most
`runBound start numThreads` actions. -/
theorem exec_bounded {E : Type} {end_ : Nat} (fn : Nat → Nat → Option E) (start n : Nat)
    (hstart : start < SIZE_MOD) (hend : end_ < SIZE_MOD) (sched : List Nat) (s : State E)
    (h : exec end_ fn (initState start n) sched = some s) :
    sched.length ≤ runBound start n := by
  have := exec_length_potential hend sched _ s (WF_initState start n hstart) h
  rw [potential_initState] at this
  omega

/-- Termination of `ParallelFor`: an interleaving of the threads has at most
`runBound` actions, and it extends to a schedule on which the call has a result. -/
theorem ParallelFor_terminates {E : Type} (hw start end_ numThreads : Nat)
    (fn : Nat → Nat → Option E) (hstart : start < SIZE_MOD) (hend : end_ < SIZE_MOD)
    (sched : List Nat) (s : State E)
    (h : exec end_ fn (initState start (resolveThreads hw numThreads)) sched = some s) :
    sched.length ≤ runBound start (resolveThreads hw numThreads) ∧
    ∃ rest r, ParallelFor hw start end_ numThreads fn (sched ++ rest) = some r :=
  ⟨exec_bounded fn start _ hstart hend sched s h,
    ParallelFor_completes hw start end_ numThreads fn hstart hend sched s h⟩

/-! ## Failures are tracked -/

theorem FailInv_initState {E : Type} (fn : Nat → Nat → Option E) (start numThreads : Nat) :
    FailInv fn (initState start numThreads) := by
  refine ⟨?_, ?_, ?_, ?_⟩
  · intro e h; simp [initState] at h
  · intro w e h
    simp only [initState, List.getElem?_replicate] at h
    rcases h with h | h <;> (split at h <;> cases h)
  · intro w h
    simp only [initState, List.getElem?_replicate] at h
    split at h <;> cases h
  · intro tid id h; simp [initState] at h

theorem FailInv_step {E : Type} {end_ : Nat} {fn : Nat → Nat → Option E}
    (s s' : State E) (tid : Nat) (hinv : FailInv fn s)
    (h : step end_ fn s tid = some s') : FailInv fn s' := by
  obtain ⟨h1, h2, h3, h4⟩ := hinv
  rcases step_cases h with ⟨hp, rfl⟩ | ⟨id, hp, rfl⟩ | ⟨e, hp, hm, rfl⟩ | ⟨e, hp, rfl⟩ |
    ⟨hp, rfl⟩
  · -- fetch
    refine ⟨?_, ?_, ?_, ?_⟩
    · intro e he
      obtain ⟨t, i, hmem, hf⟩ := h1 e he
      exact ⟨t, i, by simp [hmem], hf⟩
    · intro w e hw
      simp only [getElem?_set_of_some hp] at hw
      by_cases hwt : w = tid
      · simp only [hwt, if_true] at hw
        by_cases hge : s.current ≥ end_ <;> simp [hge] at hw
      · simp only [hwt, if_false] at hw
        obtain ⟨i, hmem, hf⟩ := h2 w e hw
        exact ⟨i, by simp [hmem], hf⟩
    · intro w hw
      simp only [getElem?_set_of_some hp] at hw
      by_cases hwt : w = tid
      · simp only [hwt, if_true] at hw
        by_cases hge : s.current ≥ end_ <;> simp [hge] at hw
      · simp only [hwt, if_false] at hw
        obtain ⟨i, hmem, hf⟩ := h3 w hw
        exact ⟨i, by simp [hmem], hf⟩
    · intro t i hmem hf
      simp only [List.mem_append, List.mem_singleton] at hmem
      rcases hmem with hmem | hmem
      · rcases h4 t i hmem hf with hc | ⟨e, hc⟩
        · exact Or.inl hc
        · right
          refine ⟨e, ?_⟩
          simp only [getElem?_set_of_some hp]
          have : t ≠ tid := by
            rintro rfl
            rw [hp] at hc; rcases hc with hc | hc <;> cases hc
          simpa [this] using hc
      · cases hmem
  · -- call
    refine ⟨?_, ?_, ?_, ?_⟩
    · intro e he
      obtain ⟨t, i, hmem, hf⟩ := h1 e he
      exact ⟨t, i, by simp [hmem], hf⟩
    · intro w e hw
      simp only [getElem?_set_of_some hp] at hw
      by_cases hwt : w = tid
      · subst hwt
        simp only [if_true] at hw
        refine ⟨id, by simp, ?_⟩
        cases hfn : fn id w with
        | none => rw [hfn] at hw; simp at hw
        | some e' => rw [hfn] at hw; simp at hw; rw [hw]
      · simp only [hwt, if_false] at hw
        obtain ⟨i, hmem, hf⟩ := h2 w e hw
        exact ⟨i, by simp [hmem], hf⟩
    · intro w hw
      simp only [getElem?_set_of_some hp] at hw
      by_cases hwt : w = tid
      · simp only [hwt, if_true] at hw
        cases hfn : fn id tid with
        | none => rw [hfn] at hw; simp at hw
        | some e' => rw [hfn] at hw; simp at hw
      · simp only [hwt, if_false] at hw
        obtain ⟨i, hmem, hf⟩ := h3 w hw
        exact ⟨i, by simp [hmem], hf⟩
    · intro t i hmem hf
      simp only [List.mem_append, List.mem_singleton] at hmem
      rcases hmem with hmem | hmem
      · rcases h4 t i hmem hf with hc | ⟨e, hc⟩
        · exact Or.inl hc
        · right
          refine ⟨e, ?_⟩
          simp only [getElem?_set_of_some hp]
          have : t ≠ tid := by
            rintro rfl
            rw [hp] at hc; rcases hc with hc | hc <;> cases hc
          simpa [this] using hc
      · injection hmem with ht hi
        subst ht hi
        right
        cases hfn : fn i t with
        | none => exact absurd hfn hf
        | some e' =>
          refine ⟨e', Or.inl ?_⟩
          simp [getElem?_set_of_some hp]
  · -- lock
    refine ⟨h1, ?_, ?_, ?_⟩
    · intro w e' hw
      simp only [getElem?_set_of_some hp] at hw
      by_cases hwt : w = tid
      · subst hwt
        simp only [if_true] at hw
        rcases hw with hw | hw
        · cases hw
        · injection hw with hw; injection hw with hw; subst hw
          exact h2 w e (Or.inl hp)
      · simp only [hwt, if_false] at hw
        exact h2 w e' hw
    · intro w hw
      simp only [getElem?_set_of_some hp] at hw
      by_cases hwt : w = tid
      · simp [hwt] at hw
      · simp only [hwt, if_false] at hw
        exact h3 w hw
    · intro t i hmem hf
      rcases h4 t i hmem hf with h | ⟨e', h⟩
      · exact Or.inl h
      · right
        by_cases htt : t = tid
        · subst htt
          exact ⟨e, Or.inr (by simp [getElem?_set_of_some hp])⟩
        · exact ⟨e', by simpa [getElem?_set_of_some hp, htt] using h⟩
  · -- record
    refine ⟨?_, ?_, ?_, ?_⟩
    · intro e' he
      injection he with he
      subst he
      obtain ⟨i, hmem, hf⟩ := h2 tid e (Or.inr hp)
      exact ⟨tid, i, by simp [hmem], hf⟩
    · intro w e' hw
      simp only [getElem?_set_of_some hp] at hw
      by_cases hwt : w = tid
      · simp [hwt] at hw
      · simp only [hwt, if_false] at hw
        obtain ⟨i, hmem, hf⟩ := h2 w e' hw
        exact ⟨i, by simp [hmem], hf⟩
    · intro w hw
      simp only [getElem?_set_of_some hp] at hw
      by_cases hwt : w = tid
      · subst hwt
        obtain ⟨i, hmem, hf⟩ := h2 w e (Or.inr hp)
        exact ⟨i, by simp [hmem], by rw [hf]; simp⟩
      · simp only [hwt, if_false] at hw
        obtain ⟨i, hmem, hf⟩ := h3 w hw
        exact ⟨i, by simp [hmem], hf⟩
    · intro t i _ _
      left
      simp
  · -- store
    refine ⟨?_, ?_, ?_, ?_⟩
    · intro e he
      obtain ⟨t, i, hmem, hf⟩ := h1 e he
      exact ⟨t, i, by simp [hmem], hf⟩
    · intro w e' hw
      simp only [getElem?_set_of_some hp] at hw
      by_cases hwt : w = tid
      · simp [hwt] at hw
      · simp only [hwt, if_false] at hw
        obtain ⟨i, hmem, hf⟩ := h2 w e' hw
        exact ⟨i, by simp [hmem], hf⟩
    · intro w hw
      simp only [getElem?_set_of_some hp] at hw
      by_cases hwt : w = tid
      · simp [hwt] at hw
      · simp only [hwt, if_false] at hw
        obtain ⟨i, hmem, hf⟩ := h3 w hw
        exact ⟨i, by simp [hmem], hf⟩
    · intro t i hmem hf
      simp only [List.mem_append, List.mem_singleton] at hmem
      rcases hmem with hmem | hmem
      · rcases h4 t i hmem hf with hc | ⟨e, hc⟩
        · exact Or.inl hc
        · right
          refine ⟨e, ?_⟩
          simp only [getElem?_set_of_some hp]
          have : t ≠ tid := by
            rintro rfl
            rw [hp] at hc; rcases hc with hc | hc <;> cases hc
          simpa [this] using hc
      · cases hmem

theorem noRaise_of_append {E : Type} {fn : Nat → Nat → Option E}
    {log : List (Event E)} {ev : Event E} (h : noRaise fn (log ++ [ev])) :
    noRaise fn log :=
  fun tid id hmem => h tid id (by simp [hmem])

theorem ReachInv_initState {E : Type} (fn : Nat → Nat → Option E) (start numThreads j : Nat)
    (hj : start ≤ j) : ReachInv fn j (initState start numThreads) := by
  unfold ReachInv
  intro _
  right; right
  refine ⟨hj, ?_⟩
  intro w h
  simp only [initState, List.getElem?_replicate] at h
  split at h <;> cases h

theorem ReachInv_step {E : Type} {end_ : Nat} {fn : Nat → Nat → Option E} {j : Nat}
    (hj : j < end_) (hend : end_ < SIZE_MOD)
    (s s' : State E) (tid : Nat) (hinv : FailInv fn s ∧ ReachInv fn j s)
    (h : step end_ fn s tid = some s') : FailInv fn s' ∧ ReachInv fn j s' := by
  refine ⟨FailInv_step s s' tid hinv.1 h, ?_⟩
  obtain ⟨⟨_, h2, h3, _⟩, hreach⟩ := hinv
  rcases step_cases h with ⟨hp, rfl⟩ | ⟨id, hp, rfl⟩ | ⟨e, hp, hm, rfl⟩ | ⟨e, hp, rfl⟩ |
    ⟨hp, rfl⟩
  · -- fetch
    unfold ReachInv
    intro hno
    rcases hreach (noRaise_of_append hno) with ⟨t, ht⟩ | ⟨w, hw⟩ | ⟨hcur, hnd⟩
    · exact Or.inl ⟨t, by simp [ht]⟩
    · right; left
      refine ⟨w, ?_⟩
      have : w ≠ tid := by rintro rfl; rw [hp] at hw; cases hw
      simp [getElem?_set_of_some hp, this, hw]
    · have hlt : ¬ s.current ≥ end_ := by omega
      by_cases hcj : s.current = j
      · right; left
        exact ⟨tid, by simp [getElem?_set_of_some hp, hcj, hj]⟩
      · right; right
        refine ⟨?_, ?_⟩
        · show (s.current + 1) % SIZE_MOD ≤ j
          rw [Nat.mod_eq_of_lt (by omega)]; omega
        · intro w hw
          simp only [getElem?_set_of_some hp] at hw
          by_cases hwt : w = tid
          · simp [hwt, hlt] at hw
          · simp only [hwt, if_false] at hw
            exact hnd w hw
  · -- call
    unfold ReachInv
    intro hno
    have hfn : fn id tid = none := hno tid id (by simp)
    rcases hreach (noRaise_of_append hno) with ⟨t, ht⟩ | ⟨w, hw⟩ | ⟨hcur, hnd⟩
    · exact Or.inl ⟨t, by simp [ht]⟩
    · by_cases hwt : w = tid
      · subst hwt
        rw [hp] at hw
        injection hw with hw; injection hw with hw; subst hw
        exact Or.inl ⟨w, by simp⟩
      · right; left
        exact ⟨w, by simp [getElem?_set_of_some hp, hwt, hw]⟩
    · right; right
      refine ⟨hcur, ?_⟩
      intro w hw
      simp only [getElem?_set_of_some hp, hfn] at hw
      by_cases hwt : w = tid
      · simp [hwt] at hw
      · simp only [hwt, if_false] at hw
        exact hnd w hw
  · -- lock
    unfold ReachInv
    intro hno
    obtain ⟨i, hmem, hf⟩ := h2 tid e (Or.inl hp)
    have := hno tid i hmem
    rw [hf] at this; cases this
  · -- record
    unfold ReachInv
    intro hno
    obtain ⟨i, hmem, hf⟩ := h2 tid e (Or.inr hp)
    have := noRaise_of_append hno tid i hmem
    rw [hf] at this; cases this
  · -- store
    unfold ReachInv
    intro hno
    obtain ⟨i, hmem, hf⟩ := h3 tid hp
    exact absurd (noRaise_of_append hno tid i hmem) hf

theorem allDone_getElem? {E : Type} {s : State E} (hd : allDone s = true) {w : Nat}
    {p : PC E} (hw : s.pcs[w]? = some p) : p = PC.done := by
  unfold allDone at hd
  rw [List.all_eq_true] at hd
  have := hd p (List.mem_iff_getElem?.mpr ⟨w, hw⟩)
  cases p <;> simp [PC.isDone] at this
  rfl

/-- In a complete run with at least one thread, either some call raised or index `j`
of the range was passed to the task. -/
theorem reach_final {E : Type} {end_ : Nat} {fn : Nat → Nat → Option E} {j start n : Nat}
    (hstart : start ≤ j) (hj : j < end_) (hend : end_ < SIZE_MOD) (hn : 1 ≤ n)
    (sched : List Nat) (s : State E)
    (hex : exec end_ fn (initState start n) sched = some s) (hd : allDone s = true)
    (hno : noRaise fn s.log) : ∃ tid, Event.invoked tid j ∈ s.log := by
  have hinv := exec_invariant (fun s => FailInv fn s ∧ ReachInv fn j s)
    (fun a b t => ReachInv_step hj hend a b t) sched _ s
    ⟨FailInv_initState fn start n, ReachInv_initState fn start n j hstart⟩ hex
  have hlen : s.pcs.length = n := by
    have := exec_invariant (fun s : State E => s.pcs.length = n)
      (fun a b t ha hs => by
        rcases step_cases hs with ⟨_, rfl⟩ | ⟨_, _, rfl⟩ | ⟨_, _, _, rfl⟩ | ⟨_, _, rfl⟩ |
          ⟨_, rfl⟩ <;> simpa using ha) sched _ s (by simp [initState]) hex
    exact this
  rcases hinv.2 hno with h | ⟨w, hw⟩ | ⟨_, hnd⟩
  · exact h
  · have := allDone_getElem? hd hw; cases this
  · exfalso
    have h0 : s.pcs[0]? = some s.pcs[0] := List.getElem?_eq_getElem (by omega)
    have := allDone_getElem? hd h0
    rw [this] at h0
    exact hnd 0 h0

/-! ## The failure slot and the mutex -/

theorem lastRecorded_append {E : Type} (log : List (Event E)) (ev : Event E) :
    lastRecorded (log ++ [ev]) = match ev with
                                 | Event.recorded _ e => some e
                                 | _ => lastRecorded log := by
  unfold lastRecorded
  rw [List.foldl_append]
  cases ev <;> rfl

theorem lastRecorded_step {E : Type} {end_ : Nat} {fn : Nat → Nat → Option E}
    (s s' : State E) (tid : Nat) (hinv : s.lastException = lastRecorded s.log)
    (h : step end_ fn s tid = some s') : s'.lastException = lastRecorded s'.log := by
  rcases step_cases h with ⟨hp, rfl⟩ | ⟨id, hp, rfl⟩ | ⟨e, hp, hm, rfl⟩ | ⟨e, hp, rfl⟩ |
    ⟨hp, rfl⟩
  · simpa [lastRecorded_append] using hinv
  · simpa [lastRecorded_append] using hinv
  · exact hinv
  · simp [lastRecorded_append]
  · simpa [lastRecorded_append] using hinv

theorem MutexOK_initState {E : Type} (start numThreads : Nat) :
    MutexOK (initState (E := E) start numThreads) := by
  constructor
  · intro w p hw hh
    simp only [initState, List.getElem?_replicate] at hw
    split at hw
    · cases hw; simp [PC.holdsMutex] at hh
    · cases hw
  · intro w w' p p' hw _ hh _
    simp only [initState, List.getElem?_replicate] at hw
    split at hw
    · cases hw; simp [PC.holdsMutex] at hh
    · cases hw

theorem MutexOK_step {E : Type} {end_ : Nat} {fn : Nat → Nat → Option E}
    (s s' : State E) (tid : Nat) (hinv : MutexOK s)
    (h : step end_ fn s tid = some s') : MutexOK s' := by
  obtain ⟨h1, h2⟩ := hinv
  have other : ∀ (q : PC E) (p0 : PC E), s.pcs[tid]? = some p0 →
      ∀ (w : Nat) (p : PC E), (s.pcs.set tid q)[w]? = some p → w ≠ tid →
        s.pcs[w]? = some p := by
    intro q p0 hp0 w p hw hne
    rw [getElem?_set_of_some hp0] at hw
    simpa [hne] using hw
  have same : ∀ (q : PC E) (p0 : PC E), s.pcs[tid]? = some p0 →
      ∀ p, (s.pcs.set tid q)[tid]? = some p → p = q := by
    intro q p0 hp0 p hw
    rw [getElem?_set_of_some hp0] at hw
    simp at hw
    exact hw.symm
  -- a step by a thread outside the critical section that stays outside
  have outside : ∀ (q p0 : PC E), s.pcs[tid]? = some p0 → p0.holdsMutex = false →
      q.holdsMutex = false →
      (∀ (w : Nat) (p : PC E), (s.pcs.set tid q)[w]? = some p → p.holdsMutex = true →
        s.lastExceptMutex = true) ∧
      (∀ (w w' : Nat) (p p' : PC E), (s.pcs.set tid q)[w]? = some p →
        (s.pcs.set tid q)[w']? = some p' →
        p.holdsMutex = true → p'.holdsMutex = true → w = w') := by
    intro q p0 hp0 _ hq
    constructor
    · intro w p hw hh
      by_cases hwt : w = tid
      · subst hwt
        have := same q p0 hp0 p hw
        subst this; rw [hq] at hh; cases hh
      · exact h1 w p (other q p0 hp0 w p hw hwt) hh
    · intro w w' p p' hw hw' hh hh'
      by_cases hwt : w = tid
      · subst hwt
        have := same q p0 hp0 p hw
        subst this; rw [hq] at hh; cases hh
      · by_cases hwt' : w' = tid
        · subst hwt'
          have := same q p0 hp0 p' hw'
          subst this; rw [hq] at hh'; cases hh'
        · exact h2 w w' p p' (other q p0 hp0 w p hw hwt) (other q p0 hp0 w' p' hw' hwt')
            hh hh'
  -- a step by the thread that is, or becomes, the only one inside
  have inside : ∀ (q p0 : PC E), s.pcs[tid]? = some p0 →
      (∀ (w : Nat) (p : PC E), w ≠ tid → s.pcs[w]? = some p → p.holdsMutex = false) →
      (∀ (w w' : Nat) (p p' : PC E), (s.pcs.set tid q)[w]? = some p →
        (s.pcs.set tid q)[w']? = some p' →
        p.holdsMutex = true → p'.holdsMutex = true → w = w') := by
    intro q p0 hp0 hothers w w' p p' hw hw' hh hh'
    by_cases hwt : w = tid
    · by_cases hwt' : w' = tid
      · rw [hwt, hwt']
      · have := hothers w' p' hwt' (other q p0 hp0 w' p' hw' hwt')
        rw [this] at hh'; cases hh'
    · have := hothers w p hwt (other q p0 hp0 w p hw hwt)
      rw [this] at hh; cases hh
  rcases step_cases h with ⟨hp, rfl⟩ | ⟨id, hp, rfl⟩ | ⟨e, hp, hm, rfl⟩ | ⟨e, hp, rfl⟩ |
    ⟨hp, rfl⟩
  · exact outside _ _ hp rfl (by by_cases hge : s.current ≥ end_ <;> simp [hge, PC.holdsMutex])
  · exact outside _ _ hp rfl (by cases fn id tid <;> simp [PC.holdsMutex])
  · have hothers : ∀ w p, w ≠ tid → s.pcs[w]? = some p → p.holdsMutex = false := by
      intro w p _ hw
      cases hh : p.holdsMutex with
      | false => rfl
      | true => have := h1 w p hw hh; rw [hm] at this; cases this
    exact ⟨fun _ _ _ _ => rfl, inside _ _ hp hothers⟩
  · have hothers : ∀ w p, w ≠ tid → s.pcs[w]? = some p → p.holdsMutex = false := by
      intro w p hne hw
      cases hh : p.holdsMutex with
      | false => rfl
      | true => exact absurd (h2 w tid p _ hw hp hh rfl) hne
    refine ⟨?_, inside _ _ hp hothers⟩
    intro w p hw hh
    exact h1 tid _ hp rfl
  · have hothers : ∀ w p, w ≠ tid → s.pcs[w]? = some p → p.holdsMutex = false := by
      intro w p hne hw
      cases hh : p.holdsMutex with
      | false => rfl
      | true => exact absurd (h2 w tid p _ hw hp hh rfl) hne
    refine ⟨?_, inside _ _ hp hothers⟩
    intro w p hw hh
    exfalso
    by_cases hwt : w = tid
    · subst hwt
      have := same _ _ hp p hw
      subst this; simp [PC.holdsMutex] at hh
    · have := hothers w p hwt (other _ _ hp w p hw hwt)
      rw [this] at hh; cases hh

theorem countP_set_of_some {α : Type} (f : α → Bool) :
    ∀ (l : List α) (t : Nat) (p q : α), l[t]? = some p →
      (l.set t q).countP f + (if f p = true then 1 else 0)
        = l.countP f + (if f q = true then 1 else 0) := by
  intro l
  induction l with
  | nil => intro t p q h; simp at h
  | cons a l ih =>
    intro t p q h
    cases t with
    | zero =>
      simp only [List.getElem?_cons_zero] at h
      injection h with h
      subst h
      simp only [List.set_cons_zero, List.countP_cons]
      omega
    | succ t =>
      simp only [List.getElem?_cons_succ] at h
      simp only [List.set_cons_succ, List.countP_cons]
      have := ih t p q h
      omega

theorem RecordInv_initState {E : Type} (fn : Nat → Nat → Option E) (start numThreads : Nat) :
    RecordInv fn (initState start numThreads) := by
  refine ⟨?_, ?_, ?_⟩
  · intro tid id e h; simp [initState] at h
  · intro tid e h; simp [initState] at h
  · have hc : (List.replicate numThreads (PC.fetch (E := E))).countP PC.beforeWrite = 0 := by
      rw [List.countP_eq_zero]
      intro p hp
      rw [List.eq_of_mem_replicate hp]
      simp [PC.beforeWrite]
    simp only [initState, recordedCount, raisedCount, List.countP_nil, hc]

theorem RecordInv_step {E : Type} {end_ : Nat} {fn : Nat → Nat → Option E}
    (s s' : State E) (tid : Nat) (hinv : FailInv fn s ∧ RecordInv fn s)
    (h : step end_ fn s tid = some s') : FailInv fn s' ∧ RecordInv fn s' := by
  refine ⟨FailInv_step s s' tid hinv.1 h, ?_⟩
  obtain ⟨⟨_, f2, _, _⟩, r1, r2, r3⟩ := hinv
  -- threads other than `tid` keep their place
  have keep : ∀ (p0 q : PC E), s.pcs[tid]? = some p0 → ∀ (t : Nat) (e : E),
      (s.pcs[t]? = some (PC.caught e) ∨ s.pcs[t]? = some (PC.locked e)) → t ≠ tid →
      ((s.pcs.set tid q)[t]? = some (PC.caught e) ∨
        (s.pcs.set tid q)[t]? = some (PC.locked e)) := by
    intro p0 q hp0 t e ht hne
    rw [getElem?_set_of_some hp0]
    simpa [hne] using ht
  rcases step_cases h with ⟨hp, rfl⟩ | ⟨id, hp, rfl⟩ | ⟨e, hp, hm, rfl⟩ | ⟨e, hp, rfl⟩ |
    ⟨hp, rfl⟩
  · -- fetch
    have hcount := countP_set_of_some (PC.beforeWrite (E := E)) s.pcs tid PC.fetch
      (if s.current ≥ end_ then PC.done else PC.call s.current) hp
    have hq : (if s.current ≥ end_ then PC.done else PC.call s.current : PC E).beforeWrite
        = false := by
      by_cases hge : s.current ≥ end_ <;> simp [hge, PC.beforeWrite]
    rw [hq] at hcount
    simp only [PC.beforeWrite, Bool.false_eq_true, if_false, Nat.add_zero] at hcount
    refine ⟨?_, ?_, ?_⟩
    · intro t i e hmem hf
      simp only [List.mem_append, List.mem_singleton] at hmem
      rcases hmem with hmem | hmem
      · rcases r1 t i e hmem hf with hr | hc
        · exact Or.inl (by simp [hr])
        · right
          have hne : t ≠ tid := by
            rintro rfl
            rw [hp] at hc; rcases hc with hc | hc <;> cases hc
          exact keep _ _ hp t e hc hne
      · cases hmem
    · intro t e hmem
      simp only [List.mem_append, List.mem_singleton] at hmem
      rcases hmem with hmem | hmem
      · obtain ⟨i, hi, hf⟩ := r2 t e hmem
        exact ⟨i, by simp [hi], hf⟩
      · cases hmem
    · show recordedCount (s.log ++ [Event.fetched tid s.current]) +
        (s.pcs.set tid _).countP PC.beforeWrite
        = raisedCount fn (s.log ++ [Event.fetched tid s.current])
      simp only [recordedCount, raisedCount, List.countP_append, List.countP_cons,
        List.countP_nil] at r3 ⊢
      simp only [Bool.false_eq_true, if_false, Nat.add_zero]
      omega
  · -- call
    have hcount := countP_set_of_some (PC.beforeWrite (E := E)) s.pcs tid (PC.call id)
      (match fn id tid with
       | none => PC.fetch
       | some e => PC.caught e) hp
    simp only [PC.beforeWrite, Bool.false_eq_true, if_false, Nat.add_zero] at hcount
    refine ⟨?_, ?_, ?_⟩
    · intro t i e hmem hf
      simp only [List.mem_append, List.mem_singleton] at hmem
      rcases hmem with hmem | hmem
      · rcases r1 t i e hmem hf with hr | hc
        · exact Or.inl (by simp [hr])
        · right
          have hne : t ≠ tid := by
            rintro rfl
            rw [hp] at hc; rcases hc with hc | hc <;> cases hc
          exact keep _ _ hp t e hc hne
      · injection hmem with ht hi
        subst ht hi
        right; left
        show (s.pcs.set t _)[t]? = _
        rw [getElem?_set_of_some hp, hf]
        simp
    · intro t e hmem
      simp only [List.mem_append, List.mem_singleton] at hmem
      rcases hmem with hmem | hmem
      · obtain ⟨i, hi, hf⟩ := r2 t e hmem
        exact ⟨i, by simp [hi], hf⟩
      · cases hmem
    · show recordedCount (s.log ++ [Event.invoked tid id]) +
        (s.pcs.set tid _).countP PC.beforeWrite
        = raisedCount fn (s.log ++ [Event.invoked tid id])
      simp only [recordedCount, raisedCount, List.countP_append, List.countP_cons,
        List.countP_nil] at r3 ⊢
      have hcases : fn id tid = none ∨ ∃ e, fn id tid = some e := by
        cases fn id tid with
        | none => exact Or.inl rfl
        | some e => exact Or.inr ⟨e, rfl⟩
      rcases hcases with hfn | ⟨e, hfn⟩
      · simp only [hfn] at hcount ⊢
        simp only [PC.beforeWrite, Bool.false_eq_true, if_false, Nat.add_zero] at hcount
        simp only [Option.isSome_none, Bool.false_eq_true, if_false, Nat.add_zero]
        omega
      · simp only [hfn] at hcount ⊢
        simp only [PC.beforeWrite, if_true] at hcount
        simp only [Option.isSome_some, Bool.false_eq_true, if_false, if_true, Nat.add_zero,
          Nat.zero_add]
        omega
  · -- lock
    have hcount := countP_set_of_some (PC.beforeWrite (E := E)) s.pcs tid (PC.caught e)
      (PC.locked e) hp
    simp only [PC.beforeWrite, if_true] at hcount
    refine ⟨?_, r2, ?_⟩
    · intro t i e' hmem hf
      rcases r1 t i e' hmem hf with hr | hc
      · exact Or.inl hr
      · right
        by_cases hne : t = tid
        · subst hne
          rw [hp] at hc
          rcases hc with hc | hc
          · injection hc with hc; injection hc with hc; subst hc
            right
            show (s.pcs.set t _)[t]? = _
            rw [getElem?_set_of_some hp]; simp
          · cases hc
        · exact keep _ _ hp t e' hc hne
    · show recordedCount s.log + (s.pcs.set tid _).countP PC.beforeWrite
        = raisedCount fn s.log
      omega
  · -- record
    have hcount := countP_set_of_some (PC.beforeWrite (E := E)) s.pcs tid (PC.locked e)
      PC.store hp
    simp only [PC.beforeWrite, Bool.false_eq_true, if_false, if_true, Nat.add_zero] at hcount
    refine ⟨?_, ?_, ?_⟩
    · intro t i e' hmem hf
      simp only [List.mem_append, List.mem_singleton] at hmem
      rcases hmem with hmem | hmem
      · rcases r1 t i e' hmem hf with hr | hc
        · exact Or.inl (by simp [hr])
        · by_cases hne : t = tid
          · subst hne
            rw [hp] at hc
            rcases hc with hc | hc
            · cases hc
            · injection hc with hc; injection hc with hc; subst hc
              exact Or.inl (by simp)
          · exact Or.inr (keep _ _ hp t e' hc hne)
      · cases hmem
    · intro t e' hmem
      simp only [List.mem_append, List.mem_singleton] at hmem
      rcases hmem with hmem | hmem
      · obtain ⟨i, hi, hf⟩ := r2 t e' hmem
        exact ⟨i, by simp [hi], hf⟩
      · injection hmem with ht he
        subst ht he
        obtain ⟨i, hi, hf⟩ := f2 t e' (Or.inr hp)
        exact ⟨i, by simp [hi], hf⟩
    · show recordedCount (s.log ++ [Event.recorded tid e]) +
        (s.pcs.set tid _).countP PC.beforeWrite
        = raisedCount fn (s.log ++ [Event.recorded tid e])
      simp only [recordedCount, raisedCount, List.countP_append, List.countP_cons,
        List.countP_nil] at r3 ⊢
      simp only [Bool.false_eq_true, if_false, if_true, Nat.add_zero, Nat.zero_add]
      omega
  · -- store
    have hcount := countP_set_of_some (PC.beforeWrite (E := E)) s.pcs tid PC.store
      PC.done hp
    simp only [PC.beforeWrite, Bool.false_eq_true, if_false, Nat.add_zero] at hcount
    refine ⟨?_, ?_, ?_⟩
    · intro t i e hmem hf
      simp only [List.mem_append, List.mem_singleton] at hmem
      rcases hmem with hmem | hmem
      · rcases r1 t i e hmem hf with hr | hc
        · exact Or.inl (by simp [hr])
        · right
          have hne : t ≠ tid := by
            rintro rfl
            rw [hp] at hc; rcases hc with hc | hc <;> cases hc
          exact keep _ _ hp t e hc hne
      · cases hmem
    · intro t e hmem
      simp only [List.mem_append, List.mem_singleton] at hmem
      rcases hmem with hmem | hmem
      · obtain ⟨i, hi, hf⟩ := r2 t e hmem
        exact ⟨i, by simp [hi], hf⟩
      · cases hmem
    · show recordedCount (s.log ++ [Event.cancelled tid]) +
        (s.pcs.set tid _).countP PC.beforeWrite
        = raisedCount fn (s.log ++ [Event.cancelled tid])
      simp only [recordedCount, raisedCount, List.countP_append, List.countP_cons,
        List.countP_nil] at r3 ⊢
      simp only [Bool.false_eq_true, if_false, Nat.add_zero]
      omega

/-- In a complete run every call that raised was followed by the write of its failure
to the slot, every write is that of a failure raised in the run, and there are as
many writes as calls that raised. -/
theorem record_final {E : Type} {end_ : Nat} {fn : Nat → Nat → Option E} {start n : Nat}
    (sched : List Nat) (s : State E)
    (hex : exec end_ fn (initState start n) sched = some s) (hd : allDone s = true) :
    (∀ tid id e, Event.invoked tid id ∈ s.log → fn id tid = some e →
      Event.recorded tid e ∈ s.log) ∧
    (∀ tid e, Event.recorded tid e ∈ s.log →
      ∃ id, Event.invoked tid id ∈ s.log ∧ fn id tid = some e) ∧
    recordedCount s.log = raisedCount fn s.log := by
  obtain ⟨_, r1, r2, r3⟩ := exec_invariant (fun s => FailInv fn s ∧ RecordInv fn s)
    (fun a b t => RecordInv_step a b t) sched _ s
    ⟨FailInv_initState fn start n, RecordInv_initState fn start n⟩ hex
  refine ⟨?_, r2, ?_⟩
  · intro tid id e hmem hf
    rcases r1 tid id e hmem hf with hr | hc | hc
    · exact hr
    · have := allDone_getElem? hd hc; cases this
    · have := allDone_getElem? hd hc; cases this
  · have hz : s.pcs.countP PC.beforeWrite = 0 := by
      rw [List.countP_eq_zero]
      intro p hp
      obtain ⟨i, hi⟩ := List.mem_iff_getElem?.mp hp
      have := allDone_getElem? hd hi
      subst this
      simp [PC.beforeWrite]
    omega

/-! ## Claims about failures of the task -/

theorem resolveThreads_pos (hw numThreads : Nat) (hn : 1 ≤ numThreads) :
    resolveThreads hw numThreads = numThreads := by
  unfold resolveThreads
  rw [if_neg (by omega)]

theorem joinOutcome_returned {E : Type} (s : State E) :
    joinOutcome s = Outcome.returned ↔ s.lastException = none := by
  unfold joinOutcome rethrow
  cases s.lastException <;> simp

theorem joinOutcome_raised {E : Type} (s : State E) (e : E) :
    joinOutcome s = Outcome.raised e ↔ s.lastException = some e := by
  unfold joinOutcome rethrow
  cases s.lastException <;> simp

/-- The three facts of C3 for a complete run of the multi-threaded branch. -/
theorem multi_failures {E : Type} {end_ : Nat} {fn : Nat → Nat → Option E} {start n : Nat}
    (hend : end_ < SIZE_MOD) (hn : 1 ≤ n) (sched : List Nat) (s : State E)
    (hex : exec end_ fn (initState start n) sched = some s) (hd : allDone s = true) :
    (joinOutcome s = Outcome.returned ↔ noRaise fn s.log) ∧
    (∀ e, joinOutcome s = Outcome.raised e →
      ∃ tid id, Event.invoked tid id ∈ s.log ∧ fn id tid = some e) ∧
    (∀ j e, start ≤ j → j < end_ → (∀ id tid, fn id tid = if id = j then some e else none) →
      joinOutcome s = Outcome.raised e) := by
  obtain ⟨h1, h2, h3, h4⟩ := exec_invariant (FailInv fn)
    (fun a b t => FailInv_step a b t) sched _ s (FailInv_initState fn start n) hex
  have hiff : joinOutcome s = Outcome.returned ↔ noRaise fn s.log := by
    rw [joinOutcome_returned]
    constructor
    · intro hnone tid id hmem
      by_contra hf
      rcases h4 tid id hmem hf with hc | ⟨e, hc | hc⟩
      · exact hc hnone
      · have := allDone_getElem? hd hc; cases this
      · have := allDone_getElem? hd hc; cases this
    · intro hno
      cases hl : s.lastException with
      | none => rfl
      | some e =>
        obtain ⟨tid, id, hmem, hf⟩ := h1 e hl
        rw [hno tid id hmem] at hf; cases hf
  have hraised : ∀ e, joinOutcome s = Outcome.raised e →
      ∃ tid id, Event.invoked tid id ∈ s.log ∧ fn id tid = some e := by
    intro e he
    exact h1 e ((joinOutcome_raised s e).mp he)
  refine ⟨hiff, hraised, ?_⟩
  intro j e hsj hje hfn
  have hnot : ¬ noRaise fn s.log := by
    intro hno
    obtain ⟨tid, hmem⟩ := reach_final hsj hje hend hn sched s hex hd hno
    have := hno tid j hmem
    rw [hfn] at this
    simp at this
  cases ho : joinOutcome s with
  | returned => exact absurd (hiff.mp ho) hnot
  | raised e' =>
    obtain ⟨tid, id, _, hf⟩ := hraised e' ho
    rw [hfn] at hf
    by_cases hid : id = j
    · simp [hid] at hf; rw [hf]
    · simp [hid] at hf

/-- The three facts of C3 for the sequential branch. -/
theorem seq_failures {E : Type} {end_ : Nat} {fn : Nat → Nat → Option E} {start : Nat}
    (hend : end_ < SIZE_MOD) (r : Run E)
    (h : seqLoop end_ fn (end_ - start + 1) start [] = some r) :
    (r.outcome = Outcome.returned ↔ noRaise fn r.log) ∧
    (∀ e, r.outcome = Outcome.raised e →
      ∃ tid id, Event.invoked tid id ∈ r.log ∧ fn id tid = some e) ∧
    (∀ j e, start ≤ j → j < end_ → (∀ id tid, fn id tid = if id = j then some e else none) →
      r.outcome = Outcome.raised e) := by
  rcases Nat.lt_or_ge end_ start with hgt | hle
  · have h0 : end_ - start = 0 := by omega
    rw [h0] at h
    unfold seqLoop at h
    rw [if_neg (by omega)] at h
    injection h with h
    subst h
    refine ⟨⟨fun _ tid id hmem => by simp at hmem, fun _ => rfl⟩, ?_, ?_⟩
    · intro e he; cases he
    · intro j e h1 h2; omega
  · obtain ⟨n, hn, hpre, hcase⟩ :=
      seqLoop_spec end_ fn hend (end_ - start + 1) start [] hle (by omega)
    rcases hcase with ⟨h1, h2, h3⟩ | ⟨e, h1, h2, h3⟩
    · rw [h1] at h
      injection h with h
      subst h
      refine ⟨⟨fun _ tid id hmem => ?_, fun _ => rfl⟩, ?_, ?_⟩
      · simp only [List.nil_append, List.mem_map, List.mem_range'_1] at hmem
        obtain ⟨i, ⟨hi1, hi2⟩, hev⟩ := hmem
        injection hev with ht hi
        subst ht hi
        exact h3 i hi1 (by omega)
      · intro e he; cases he
      · intro j e hsj hje hfn
        have := h3 j hsj hje
        rw [hfn] at this; simp at this
    · rw [h1] at h
      injection h with h
      subst h
      have hmem : Event.invoked 0 (start + n - 1) ∈
          ([] : List (Event E)) ++ (List.range' start n).map (Event.invoked 0) := by
        simp only [List.nil_append, List.mem_map, List.mem_range'_1]
        exact ⟨start + n - 1, ⟨by omega, by omega⟩, rfl⟩
      refine ⟨⟨fun hr => (by cases hr), fun hno => ?_⟩, ?_, ?_⟩
      · have := hno 0 (start + n - 1) hmem
        rw [h3] at this; cases this
      · intro e' he
        injection he with he
        subst he
        exact ⟨0, start + n - 1, hmem, h3⟩
      · intro j e' _ _ hfn
        rw [hfn] at h3
        by_cases hid : start + n - 1 = j
        · simp [hid] at h3; rw [h3]
        · simp [hid] at h3

/-- C3. For `numThreads ≥ 1`, every interleaving of the threads is finite and extends
to one on which `ParallelFor` has a result, and for every result, which is read once
all threads have returned: the call returns normally exactly when no call of the task
raised; a failure it raises is one a task call of this run raised; and if the task
raises only on one index `j` of the range, with failure `e`, the call raises `e`. -/
theorem failures_never_swallowed {E : Type} (hw start end_ numThreads : Nat)
    (fn : Nat → Nat → Option E) (hstart : start < SIZE_MOD) (hend : end_ < SIZE_MOD)
    (hn : 1 ≤ numThreads) :
    (∀ sched s, exec end_ fn (initState start (resolveThreads hw numThreads)) sched = some s →
      sched.length ≤ runBound start (resolveThreads hw numThreads) ∧
      ∃ rest r, ParallelFor hw start end_ numThreads fn (sched ++ rest) = some r) ∧
    (∀ sched r, ParallelFor hw start end_ numThreads fn sched = some r →
      (r.outcome = Outcome.returned ↔ noRaise fn r.log) ∧
      (∀ e, r.outcome = Outcome.raised e →
        ∃ tid id, Event.invoked tid id ∈ r.log ∧ fn id tid = some e) ∧
      (∀ j e, start ≤ j → j < end_ →
        (∀ id tid, fn id tid = if id = j then some e else none) →
        r.outcome = Outcome.raised e)) := by
  refine ⟨fun sched s h =>
    ParallelFor_terminates hw start end_ numThreads fn hstart hend sched s h, ?_⟩
  intro sched r h
  by_cases h1 : resolveThreads hw numThreads = 1
  · rw [ParallelFor_seq _ _ _ _ _ _ h1] at h
    exact seq_failures hend r h
  · obtain ⟨s, hex, hd, rfl⟩ := ParallelFor_multi_some h1 h
    rw [resolveThreads_pos hw numThreads hn] at hex
    exact multi_failures hend hn sched s hex hd

/-- Witness for C3: range `[0, 4)`, two threads, a task that raises on index 2 only. -/
theorem failures_never_swallowed_witness :
    (0 : Nat) < SIZE_MOD ∧ (4 : Nat) < SIZE_MOD ∧
    ∀ sched r, ParallelFor 8 0 4 2 (fun id _ => if id = 2 then some 7 else none) sched
        = some r → r.outcome = Outcome.raised 7 :=
  ⟨by decide, by decide, fun sched r h =>
    ((failures_never_swallowed 8 0 4 2 (fun id _ => if id = 2 then some 7 else none)
      (by decide) (by decide) (by decide)).2 sched r h).2.2 2 7 (by decide) (by decide)
      (fun _ _ => rfl)⟩

/-- An action either is the write of line 71 by the thread that holds the mutex, which
puts its failure in the slot whatever the slot held, or leaves the slot alone. -/
theorem slot_write_step {E : Type} {end_ : Nat} {fn : Nat → Nat → Option E}
    (s s' : State E) (tid : Nat) (h : step end_ fn s tid = some s') :
    (∃ e, s.pcs[tid]? = some (PC.locked e) ∧ s'.lastException = some e ∧
      s'.log = s.log ++ [Event.recorded tid e]) ∨
    (s'.lastException = s.lastException ∧ recordedCount s'.log = recordedCount s.log) := by
  rcases step_cases h with ⟨hp, rfl⟩ | ⟨id, hp, rfl⟩ | ⟨e, hp, hm, rfl⟩ | ⟨e, hp, rfl⟩ |
    ⟨hp, rfl⟩
  · exact Or.inr ⟨rfl, by simp [recordedCount, List.countP_append]⟩
  · exact Or.inr ⟨rfl, by simp [recordedCount, List.countP_append]⟩
  · exact Or.inr ⟨rfl, rfl⟩
  · exact Or.inl ⟨e, hp, rfl, rfl⟩
  · exact Or.inr ⟨rfl, by simp [recordedCount, List.countP_append]⟩

/-- C4 as the code has it. With two or more threads: a thread at line 71 can always
act, and its action puts its failure in the slot whatever the slot held, while every
other action leaves the slot alone; every interleaving is finite and extends to a
complete one; at every point at most one thread is inside the critical section and it
holds the mutex, and the slot holds the failure written last; in a complete run every
call that raised was followed by the write of its failure by its thread, every write
is that of a failure raised in the run, there are as many writes as calls that raised,
and the call raises the failure written last (returning normally when none was). -/
theorem last_failure_wins {E : Type} (hw start end_ numThreads : Nat)
    (fn : Nat → Nat → Option E) (hstart : start < SIZE_MOD) (hend : end_ < SIZE_MOD)
    (hn : 2 ≤ numThreads) :
    (∀ (s : State E) (tid : Nat) (e : E), s.pcs[tid]? = some (PC.locked e) →
      ∃ s', step end_ fn s tid = some s' ∧ s'.lastException = some e ∧
        s'.log = s.log ++ [Event.recorded tid e]) ∧
    (∀ (s s' : State E) (tid : Nat), step end_ fn s tid = some s' →
      (∃ e, s.pcs[tid]? = some (PC.locked e) ∧ s'.lastException = some e ∧
        s'.log = s.log ++ [Event.recorded tid e]) ∨
      (s'.lastException = s.lastException ∧
        recordedCount s'.log = recordedCount s.log)) ∧
    (∀ sched s, exec end_ fn (initState start numThreads) sched = some s →
      sched.length ≤ runBound start numThreads ∧
      (∃ rest r, ParallelFor hw start end_ numThreads fn (sched ++ rest) = some r) ∧
      MutexOK s ∧ s.lastException = lastRecorded s.log) ∧
    (∀ sched r, ParallelFor hw start end_ numThreads fn sched = some r →
      (∀ tid id e, Event.invoked tid id ∈ r.log → fn id tid = some e →
        Event.recorded tid e ∈ r.log) ∧
      (∀ tid e, Event.recorded tid e ∈ r.log →
        ∃ id, Event.invoked tid id ∈ r.log ∧ fn id tid = some e) ∧
      recordedCount r.log = raisedCount fn r.log ∧
      r.outcome = rethrow (lastRecorded r.log)) := by
  have hres : resolveThreads hw numThreads = numThreads :=
    resolveThreads_pos hw numThreads (by omega)
  have hrec : ∀ sched s, exec end_ fn (initState start numThreads) sched = some s →
      s.lastException = lastRecorded s.log := fun sched s h =>
    exec_invariant (fun s : State E => s.lastException = lastRecorded s.log)
      (fun a b t => lastRecorded_step a b t) sched _ s rfl h
  refine ⟨?_, fun s s' tid h => slot_write_step s s' tid h, ?_, ?_⟩
  · intro s tid e hp
    exact ⟨{ s with lastException := some e
                    pcs := s.pcs.set tid PC.store
                    log := s.log ++ [Event.recorded tid e] },
      by simp [step, hp], rfl, rfl⟩
  · intro sched s h
    refine ⟨exec_bounded fn start _ hstart hend sched s h, ?_, ?_, hrec sched s h⟩
    · exact ParallelFor_completes hw start end_ numThreads fn hstart hend sched s
        (by rw [hres]; exact h)
    · exact exec_invariant MutexOK (fun a b t => MutexOK_step a b t) sched _ s
        (MutexOK_initState start numThreads) h
  · intro sched r h
    have h1 : resolveThreads hw numThreads ≠ 1 := by rw [hres]; omega
    obtain ⟨s, hex, hd, rfl⟩ := ParallelFor_multi_some h1 h
    rw [hres] at hex
    obtain ⟨f1, f2, f3⟩ := record_final sched s hex hd
    refine ⟨f1, f2, f3, ?_⟩
    show joinOutcome s = _
    rw [← hrec sched s hex]
    rfl

/-- Witness for C4 as the code has it: two threads on `[0, 2)`, every call raising
its index. In every complete run each call that raised has its write in the log and
the call raises the failure written last. -/
theorem last_failure_wins_witness :
    (0 : Nat) < SIZE_MOD ∧ (2 : Nat) < SIZE_MOD ∧ 2 ≤ 2 ∧
    ∀ sched r, ParallelFor 8 0 2 2 (fun id _ => some id) sched = some r →
      (∀ tid id e, Event.invoked tid id ∈ r.log → (fun id (_ : Nat) => some id) id tid = some e →
        Event.recorded tid e ∈ r.log) ∧
      (∀ tid e, Event.recorded tid e ∈ r.log →
        ∃ id, Event.invoked tid id ∈ r.log ∧ (fun id (_ : Nat) => some id) id tid = some e) ∧
      recordedCount r.log = raisedCount (fun id _ => some id) r.log ∧
      r.outcome = rethrow (lastRecorded r.log) :=
  ⟨by decide, by decide, by decide,
    (last_failure_wins 8 0 2 2 (fun id _ => some id) (by decide) (by decide)
      (by decide)).2.2.2⟩

/-- Counterexample to C4 as stated: two threads on `[0, 2)`, every call raising its
index. Thread 0 records failure 0 first, thread 1 then overwrites the slot with
failure 1, and the call raises 1, not the failure recorded first. -/
theorem first_failure_does_not_win :
    ParallelFor 8 0 2 2 (fun id _ => some id) [0, 1, 0, 1, 0, 0, 0, 1, 1, 1]
      = some { log := [Event.fetched 0 0, Event.fetched 1 1, Event.invoked 0 0,
                       Event.invoked 1 1, Event.recorded 0 0, Event.cancelled 0,
                       Event.recorded 1 1, Event.cancelled 1],
               outcome := Outcome.raised 1 } ∧
    firstRecorded [Event.fetched 0 0, Event.fetched 1 1, Event.invoked 0 0,
                   Event.invoked 1 1, Event.recorded 0 0, Event.cancelled 0,
                   Event.recorded 1 1, Event.cancelled 1] = some 0 := by
  decide

/-! ## Exactly-once execution -/

theorem doneCount_set {E : Type} {pcs : List (PC E)} {tid : Nat} {p0 : PC E}
    (hp : pcs[tid]? = some p0) (hnd : p0.isDone = false) (q : PC E) :
    doneCount (pcs.set tid q) = doneCount pcs + (if q.isDone = true then 1 else 0) := by
  have hlt := lt_length_of_getElem? hp
  have hget : pcs[tid] = p0 := by
    rw [List.getElem?_eq_getElem hlt] at hp
    injection hp
  unfold doneCount
  rw [List.countP_set _ _ _ _ hlt, hget, hnd]
  simp

theorem doneCount_lt {E : Type} {pcs : List (PC E)} {tid : Nat} {p0 : PC E}
    (hp : pcs[tid]? = some p0) (hnd : p0.isDone = false) :
    doneCount pcs < pcs.length := by
  unfold doneCount
  have hle := List.countP_le_length (PC.isDone (E := E)) (l := pcs)
  rcases Nat.lt_or_ge (List.countP PC.isDone pcs) pcs.length with h | h
  · exact h
  · have heq : List.countP PC.isDone pcs = pcs.length := by omega
    have := List.countP_eq_length.mp heq p0 (List.mem_iff_getElem?.mpr ⟨tid, hp⟩)
    rw [hnd] at this; cases this

theorem doneCount_of_allDone {E : Type} {s : State E} (hd : allDone s = true) :
    doneCount s.pcs = s.pcs.length := by
  unfold doneCount
  rw [List.countP_eq_length]
  unfold allDone at hd
  rw [List.all_eq_true] at hd
  exact hd

theorem fetchCount_append_fetched {E : Type} (log : List (Event E)) (tid id : Nat) :
    fetchCount (log ++ [Event.fetched tid id]) = fetchCount log + 1 := by
  simp [fetchCount, List.countP_append]

theorem fetchCount_append_invoked {E : Type} (log : List (Event E)) (tid id : Nat) :
    fetchCount (log ++ [Event.invoked tid id]) = fetchCount log := by
  simp [fetchCount, List.countP_append]

theorem invokedIds_append_fetched {E : Type} (log : List (Event E)) (tid id : Nat) :
    invokedIds (log ++ [Event.fetched tid id]) = invokedIds log := by
  simp [invokedIds, List.filterMap_append]

theorem invokedIds_append_invoked {E : Type} (log : List (Event E)) (tid id : Nat) :
    invokedIds (log ++ [Event.invoked tid id]) = invokedIds log ++ [id] := by
  simp [invokedIds, List.filterMap_append]

theorem mem_invokedIds {E : Type} (log : List (Event E)) (id : Nat) :
    id ∈ invokedIds log ↔ ∃ tid, Event.invoked tid id ∈ log := by
  unfold invokedIds
  rw [List.mem_filterMap]
  constructor
  · rintro ⟨ev, hmem, hev⟩
    cases ev with
    | invoked t i => simp at hev; subst hev; exact ⟨t, hmem⟩
    | fetched t i => simp at hev
    | recorded t e => simp at hev
    | cancelled t => simp at hev
  · rintro ⟨tid, hmem⟩
    exact ⟨_, hmem, rfl⟩

theorem OnceInv_initState {E : Type} (fn : Nat → Nat → Option E) (start end_ n : Nat)
    (hstart : start < SIZE_MOD) : OnceInv fn start end_ (initState start n) := by
  unfold OnceInv
  intro _
  have hrep : ∀ (w : Nat) (id : Nat),
      (List.replicate n (PC.fetch (E := E)))[w]? ≠ some (PC.call id) := by
    intro w id h
    rw [List.getElem?_replicate] at h
    split at h <;> cases h
  have hdc : doneCount (List.replicate n (PC.fetch (E := E))) = 0 := by
    unfold doneCount
    rw [List.countP_eq_zero]
    intro p hp
    rw [List.eq_of_mem_replicate hp]
    simp [PC.isDone]
  simp only [initState, fetchCount, invokedIds, List.countP_nil, List.filterMap_nil,
    Nat.add_zero, hdc]
  refine ⟨?_, ?_, ?_, ?_, ?_, List.nodup_nil, ?_, ?_⟩
  · exact (Nat.mod_eq_of_lt hstart).symm
  · omega
  · intro h; omega
  · intro w id h; exact absurd h (hrep w id)
  · intro w w' id h; exact absurd h (hrep w id)
  · intro id h; simp at h
  · intro id h1 h2; omega

theorem length_step {E : Type} {end_ : Nat} {fn : Nat → Nat → Option E}
    (s s' : State E) (tid : Nat) (n : Nat) (hlen : s.pcs.length = n)
    (h : step end_ fn s tid = some s') : s'.pcs.length = n := by
  rcases step_cases h with ⟨_, rfl⟩ | ⟨_, _, rfl⟩ | ⟨_, _, _, rfl⟩ | ⟨_, _, rfl⟩ | ⟨_, rfl⟩ <;>
    simpa using hlen

theorem OnceInv_step {E : Type} {end_ : Nat} {fn : Nat → Nat → Option E} {start n : Nat}
    (hsize : max start end_ + n ≤ SIZE_MOD)
    (s s' : State E) (tid : Nat)
    (hinv : FailInv fn s ∧ s.pcs.length = n ∧ OnceInv fn start end_ s)
    (h : step end_ fn s tid = some s') :
    FailInv fn s' ∧ s'.pcs.length = n ∧ OnceInv fn start end_ s' := by
  refine ⟨FailInv_step s s' tid hinv.1 h, length_step s s' tid n hinv.2.1 h, ?_⟩
  obtain ⟨⟨_, h2, h3, _⟩, hlen, honce⟩ := hinv
  rcases step_cases h with ⟨hp, rfl⟩ | ⟨id, hp, rfl⟩ | ⟨e, hp, hm, rfl⟩ | ⟨e, hp, rfl⟩ |
    ⟨hp, rfl⟩
  · -- fetch
    unfold OnceInv
    intro hno
    obtain ⟨j1, j2, j3, j4, j5, j6, j7, j8⟩ := honce (noRaise_of_append hno)
    have hd := doneCount_lt hp rfl
    have hnowrap : start + fetchCount s.log < SIZE_MOD := by omega
    have hcur : s.current = start + fetchCount s.log := by
      rw [j1]; exact Nat.mod_eq_of_lt hnowrap
    have hother : ∀ (q : PC E) (w id : Nat), (s.pcs.set tid q)[w]? = some (PC.call id) →
        w ≠ tid → s.pcs[w]? = some (PC.call id) := by
      intro q w id hw hne
      rw [getElem?_set_of_some hp] at hw
      simpa [hne] using hw
    have hsame : ∀ (q p : PC E), (s.pcs.set tid q)[tid]? = some p → p = q := by
      intro q p hw
      rw [getElem?_set_of_some hp] at hw
      simp at hw
      exact hw.symm
    simp only [fetchCount_append_fetched, invokedIds_append_fetched]
    by_cases hge : s.current ≥ end_
    · simp only [hge, if_true]
      rw [doneCount_set hp rfl]
      simp only [PC.isDone, if_true]
      refine ⟨?_, by omega, fun _ => by omega, ?_, ?_, j6, ?_, ?_⟩
      · rw [hcur]; rfl
      · intro w id hw
        by_cases hwt : w = tid
        · subst hwt; have := hsame _ _ hw; cases this
        · have := j4 w id (hother _ w id hw hwt)
          exact ⟨this.1, by omega, this.2.2.1, this.2.2.2⟩
      · intro w w' id hw hw'
        by_cases hwt : w = tid
        · subst hwt; have := hsame _ _ hw; cases this
        · by_cases hwt' : w' = tid
          · subst hwt'; have := hsame _ _ hw'; cases this
          · exact j5 w w' id (hother _ w id hw hwt) (hother _ w' id hw' hwt')
      · intro id hid
        have := j7 id hid
        exact ⟨this.1, by omega, this.2.2⟩
      · intro id hi1 hi2 hi3
        have hlt : id < start + fetchCount s.log := by omega
        rcases j8 id hi1 hlt hi3 with hmem | ⟨w, hw⟩
        · exact Or.inl hmem
        · right
          refine ⟨w, ?_⟩
          have : w ≠ tid := by rintro rfl; rw [hp] at hw; cases hw
          rw [getElem?_set_of_some hp]
          simpa [this] using hw
    · simp only [hge, if_false]
      rw [doneCount_set hp rfl]
      simp only [PC.isDone]
      have hlt : s.current < end_ := by omega
      refine ⟨?_, ?_, ?_, ?_, ?_, j6, ?_, ?_⟩
      · rw [hcur]; rfl
      · have : end_ ≤ max start end_ := le_max_right _ _
        simp only [Bool.false_eq_true, if_false, Nat.add_zero]
        omega
      · intro hdone
        simp only [Bool.false_eq_true, if_false, Nat.add_zero] at hdone
        have := j3 hdone
        omega
      · intro w id hw
        by_cases hwt : w = tid
        · subst hwt
          have := hsame _ _ hw
          injection this with this
          subst this
          refine ⟨by omega, by omega, hlt, ?_⟩
          intro hmem
          have := j7 _ hmem
          omega
        · have := j4 w id (hother _ w id hw hwt)
          exact ⟨this.1, by omega, this.2.2.1, this.2.2.2⟩
      · intro w w' id hw hw'
        by_cases hwt : w = tid
        · by_cases hwt' : w' = tid
          · rw [hwt, hwt']
          · subst hwt
            have := hsame _ _ hw
            injection this with this
            have := j4 w' id (hother _ w' id hw' hwt')
            omega
        · by_cases hwt' : w' = tid
          · subst hwt'
            have := hsame _ _ hw'
            injection this with this
            have := j4 w id (hother _ w id hw hwt)
            omega
          · exact j5 w w' id (hother _ w id hw hwt) (hother _ w' id hw' hwt')
      · intro id hid
        have := j7 id hid
        exact ⟨this.1, by omega, this.2.2⟩
      · intro id hi1 hi2 hi3
        by_cases hid : id = s.current
        · right
          refine ⟨tid, ?_⟩
          rw [getElem?_set_of_some hp, hid]
          simp
        · have hlt2 : id < start + fetchCount s.log := by omega
          rcases j8 id hi1 hlt2 hi3 with hmem | ⟨w, hw⟩
          · exact Or.inl hmem
          · right
            refine ⟨w, ?_⟩
            have : w ≠ tid := by rintro rfl; rw [hp] at hw; cases hw
            rw [getElem?_set_of_some hp]
            simpa [this] using hw
  · -- call
    unfold OnceInv
    intro hno
    have hfn : fn id tid = none := hno tid id (by simp)
    obtain ⟨j1, j2, j3, j4, j5, j6, j7, j8⟩ := honce (noRaise_of_append hno)
    have hother : ∀ (q : PC E) (w id : Nat), (s.pcs.set tid q)[w]? = some (PC.call id) →
        w ≠ tid → s.pcs[w]? = some (PC.call id) := by
      intro q w id hw hne
      rw [getElem?_set_of_some hp] at hw
      simpa [hne] using hw
    have hsame : ∀ (q p : PC E), (s.pcs.set tid q)[tid]? = some p → p = q := by
      intro q p hw
      rw [getElem?_set_of_some hp] at hw
      simp at hw
      exact hw.symm
    have hmine := j4 tid id hp
    simp only [fetchCount_append_invoked, invokedIds_append_invoked, hfn]
    rw [doneCount_set hp rfl]
    simp only [PC.isDone, Bool.false_eq_true, if_false, Nat.add_zero]
    refine ⟨j1, j2, j3, ?_, ?_, ?_, ?_, ?_⟩
    · intro w id' hw
      by_cases hwt : w = tid
      · subst hwt; have := hsame _ _ hw; cases this
      · have hw0 := hother _ w id' hw hwt
        have := j4 w id' hw0
        refine ⟨this.1, this.2.1, this.2.2.1, ?_⟩
        intro hmem
        rw [List.mem_append, List.mem_singleton] at hmem
        rcases hmem with hmem | hmem
        · exact this.2.2.2 hmem
        · subst hmem
          exact hwt (j5 w tid id' hw0 hp)
    · intro w w' id' hw hw'
      by_cases hwt : w = tid
      · subst hwt; have := hsame _ _ hw; cases this
      · by_cases hwt' : w' = tid
        · subst hwt'; have := hsame _ _ hw'; cases this
        · exact j5 w w' id' (hother _ w id' hw hwt) (hother _ w' id' hw' hwt')
    · rw [List.nodup_append]
      refine ⟨j6, List.nodup_singleton _, ?_⟩
      intro x hx hx'
      rw [List.mem_singleton] at hx'
      subst hx'
      exact hmine.2.2.2 hx
    · intro id' hid
      rw [List.mem_append, List.mem_singleton] at hid
      rcases hid with hid | hid
      · exact j7 id' hid
      · subst hid; exact ⟨hmine.1, hmine.2.1, hmine.2.2.1⟩
    · intro id' hi1 hi2 hi3
      rcases j8 id' hi1 hi2 hi3 with hmem | ⟨w, hw⟩
      · exact Or.inl (by simp [hmem])
      · by_cases hwt : w = tid
        · subst hwt
          rw [hp] at hw
          injection hw with hw; injection hw with hw
          subst hw
          exact Or.inl (by simp)
        · right
          refine ⟨w, ?_⟩
          rw [getElem?_set_of_some hp]
          simpa [hwt] using hw
  · -- lock
    unfold OnceInv
    intro hno
    obtain ⟨i, hmem, hf⟩ := h2 tid e (Or.inl hp)
    have := hno tid i hmem
    rw [hf] at this; cases this
  · -- record
    unfold OnceInv
    intro hno
    obtain ⟨i, hmem, hf⟩ := h2 tid e (Or.inr hp)
    have := noRaise_of_append hno tid i hmem
    rw [hf] at this; cases this
  · -- store
    unfold OnceInv
    intro hno
    obtain ⟨i, hmem, hf⟩ := h3 tid hp
    exact absurd (noRaise_of_append hno tid i hmem) hf

theorem count_of_nodup_mem {l : List Nat} (hnd : l.Nodup) (P : Nat → Prop)
    [DecidablePred P] (hmem : ∀ i, i ∈ l ↔ P i) :
    ∀ i, l.count i = if P i then 1 else 0 := by
  intro i
  by_cases hP : P i
  · rw [if_pos hP]
    exact List.count_eq_one_of_mem hnd ((hmem i).mpr hP)
  · rw [if_neg hP]
    exact List.count_eq_zero_of_not_mem (fun h => hP ((hmem i).mp h))

/-- Exactly-once for a complete run of the multi-threaded branch in which no call
raised, when the cursor cannot wrap. -/
theorem multi_once {E : Type} {end_ : Nat} {fn : Nat → Nat → Option E} {start n : Nat}
    (hstart : start < SIZE_MOD) (hsize : max start end_ + n ≤ SIZE_MOD) (hn : 1 ≤ n)
    (sched : List Nat) (s : State E)
    (hex : exec end_ fn (initState start n) sched = some s) (hd : allDone s = true)
    (hno : noRaise fn s.log) :
    ∀ i, (invokedIds s.log).count i = if start ≤ i ∧ i < end_ then 1 else 0 := by
  obtain ⟨_, hlen, honce⟩ := exec_invariant
    (fun s => FailInv fn s ∧ s.pcs.length = n ∧ OnceInv fn start end_ s)
    (fun a b t => OnceInv_step hsize a b t) sched _ s
    ⟨FailInv_initState fn start n, by simp [initState],
      OnceInv_initState fn start end_ n hstart⟩ hex
  obtain ⟨_, _, j3, _, _, j6, j7, j8⟩ := honce hno
  have hdc : 1 ≤ doneCount s.pcs := by rw [doneCount_of_allDone hd, hlen]; exact hn
  have hpast := j3 hdc
  apply count_of_nodup_mem j6
  intro i
  constructor
  · intro hi
    have := j7 i hi
    exact ⟨this.1, this.2.2⟩
  · rintro ⟨h1, h2⟩
    rcases j8 i h1 (by omega) h2 with hmem | ⟨w, hw⟩
    · exact hmem
    · have := allDone_getElem? hd hw; cases this

/-- When the range is empty the task is never called, whatever it would raise. -/
theorem empty_range_step {E : Type} {end_ : Nat} {fn : Nat → Nat → Option E} {start n : Nat}
    (hempty : end_ ≤ start) (hsize : max start end_ + n ≤ SIZE_MOD)
    (s s' : State E) (tid : Nat)
    (hinv : invokedIds s.log = [] ∧
      (FailInv fn s ∧ s.pcs.length = n ∧ OnceInv fn start end_ s))
    (h : step end_ fn s tid = some s') :
    invokedIds s'.log = [] ∧
      (FailInv fn s' ∧ s'.pcs.length = n ∧ OnceInv fn start end_ s') := by
  refine ⟨?_, OnceInv_step hsize s s' tid hinv.2 h⟩
  obtain ⟨hnil, _, _, honce⟩ := hinv
  have hno : noRaise fn s.log := by
    intro tid id hmem
    have : id ∈ invokedIds s.log := (mem_invokedIds s.log id).mpr ⟨tid, hmem⟩
    rw [hnil] at this; cases this
  rcases step_cases h with ⟨hp, rfl⟩ | ⟨id, hp, rfl⟩ | ⟨e, hp, hm, rfl⟩ | ⟨e, hp, rfl⟩ |
    ⟨hp, rfl⟩
  · simpa [invokedIds] using hnil
  · have := (honce hno).2.2.2.1 tid id hp
    omega
  · exact hnil
  · simpa [invokedIds] using hnil
  · simpa [invokedIds] using hnil

theorem invokedIds_map_invoked {E : Type} (l : List Nat) :
    invokedIds (l.map (Event.invoked (E := E) 0)) = l := by
  induction l with
  | nil => rfl
  | cons a l ih =>
    unfold invokedIds at ih ⊢
    simp only [List.map_cons, List.filterMap_cons]
    rw [ih]

/-- C1. For `N + numThreads ≤ 2^64`, `numThreads ≥ 1` and a task that never raises:
every interleaving of the threads is finite and extends to one on which
`ParallelFor(0, N, numThreads, fn)` has a result, and every result is a normal return
in which each index below `N` was passed to the task exactly once and no other index
was. -/
theorem exactly_once {E : Type} (hw N numThreads : Nat) (fn : Nat → Nat → Option E)
    (hn : 1 ≤ numThreads) (hsize : N + numThreads ≤ SIZE_MOD)
    (hfn : ∀ id tid, fn id tid = none) :
    (∀ sched s, exec N fn (initState 0 (resolveThreads hw numThreads)) sched = some s →
      sched.length ≤ runBound 0 (resolveThreads hw numThreads) ∧
      ∃ rest r, ParallelFor hw 0 N numThreads fn (sched ++ rest) = some r) ∧
    (∀ sched r, ParallelFor hw 0 N numThreads fn sched = some r →
      r.outcome = Outcome.returned ∧
      ∀ i, (invokedIds r.log).count i = if i < N then 1 else 0) := by
  have hN : N < SIZE_MOD := by omega
  have h0 : (0 : Nat) < SIZE_MOD := by unfold SIZE_MOD; omega
  refine ⟨fun sched s h =>
    ParallelFor_terminates hw 0 N numThreads fn h0 hN sched s h, ?_⟩
  intro sched r h
  have hnoall : ∀ log : List (Event E), noRaise fn log := fun _ tid id _ => hfn id tid
  by_cases h1 : resolveThreads hw numThreads = 1
  · rw [ParallelFor_seq _ _ _ _ _ _ h1] at h
    refine ⟨(seq_failures hN r h).1.mpr (hnoall _), ?_⟩
    obtain ⟨n, hn, hpre, hcase⟩ :=
      seqLoop_spec N fn hN (N - 0 + 1) 0 [] (Nat.zero_le _) (by omega)
    rcases hcase with ⟨h2, h3, _⟩ | ⟨e, _, _, h3⟩
    · rw [h2] at h
      injection h with h
      subst h
      simp only [List.nil_append, invokedIds_map_invoked]
      apply count_of_nodup_mem (List.nodup_range' 0 n)
      intro i
      rw [List.mem_range'_1]
      omega
    · rw [hfn] at h3; cases h3
  · obtain ⟨s, hex, hd, rfl⟩ := ParallelFor_multi_some h1 h
    rw [resolveThreads_pos hw numThreads hn] at hex
    refine ⟨(multi_failures hN hn sched s hex hd).1.mpr (hnoall _), ?_⟩
    have := multi_once h0 (by rw [Nat.max_eq_right (Nat.zero_le _)]; exact hsize) hn
      sched s hex hd (hnoall _)
    intro i
    rw [this i]
    simp

/-- Witness for C1: three items, two threads, a task that never raises. -/
theorem exactly_once_witness :
    (1 ≤ 2) ∧ (3 + 2 ≤ SIZE_MOD) ∧
    ∀ sched r, ParallelFor 8 0 3 2 (fun _ _ => (none : Option Unit)) sched = some r →
      r.outcome = Outcome.returned ∧
      ∀ i, (invokedIds r.log).count i = if i < 3 then 1 else 0 :=
  ⟨by decide, by decide,
    (exactly_once 8 3 2 (fun _ _ => (none : Option Unit)) (by decide) (by decide)
      (fun _ _ => rfl)).2⟩

/-- Exactly-once execution over `[start, end)` for the thread count the call resolves
to, when it is at least 1 and the cursor cannot wrap: in particular for
`numThreads = 0` and `hardware_concurrency() = hw ≥ 1`. -/
theorem auto_detected_exactly_once {E : Type} (hw start end_ numThreads : Nat)
    (fn : Nat → Nat → Option E) (hle : start ≤ end_)
    (hn : 1 ≤ resolveThreads hw numThreads)
    (hsize : end_ + resolveThreads hw numThreads ≤ SIZE_MOD)
    (hfn : ∀ id tid, fn id tid = none) :
    (∀ sched s, exec end_ fn (initState start (resolveThreads hw numThreads)) sched = some s →
      sched.length ≤ runBound start (resolveThreads hw numThreads) ∧
      ∃ rest r, ParallelFor hw start end_ numThreads fn (sched ++ rest) = some r) ∧
    (∀ sched r, ParallelFor hw start end_ numThreads fn sched = some r →
      r.outcome = Outcome.returned ∧
      ∀ i, (invokedIds r.log).count i = if start ≤ i ∧ i < end_ then 1 else 0) := by
  have hend : end_ < SIZE_MOD := by omega
  have hstart : start < SIZE_MOD := by omega
  refine ⟨fun sched s h =>
    ParallelFor_terminates hw start end_ numThreads fn hstart hend sched s h, ?_⟩
  intro sched r h
  have hnoall : ∀ log : List (Event E), noRaise fn log := fun _ tid id _ => hfn id tid
  by_cases h1 : resolveThreads hw numThreads = 1
  · rw [ParallelFor_seq _ _ _ _ _ _ h1] at h
    refine ⟨(seq_failures hend r h).1.mpr (hnoall _), ?_⟩
    obtain ⟨n, hn, hpre, hcase⟩ :=
      seqLoop_spec end_ fn hend (end_ - start + 1) start [] hle (by omega)
    rcases hcase with ⟨h2, h3, _⟩ | ⟨e, _, _, h3⟩
    · rw [h2] at h
      injection h with h
      subst h
      simp only [List.nil_append, invokedIds_map_invoked]
      apply count_of_nodup_mem (List.nodup_range' start n)
      intro i
      rw [List.mem_range'_1]
      omega
    · rw [hfn] at h3; cases h3
  · obtain ⟨s, hex, hd, rfl⟩ := ParallelFor_multi_some h1 h
    exact ⟨(multi_failures hend hn sched s hex hd).1.mpr (hnoall _),
      multi_once hstart (by rw [Nat.max_eq_right hle]; exact hsize) hn sched s hex hd
        (hnoall _)⟩

/-- C5 as the code has it. For `start > end`, `numThreads ≥ 1` and
`start + numThreads ≤ 2^64` the range is not validated: every interleaving is finite
and extends to one on which `ParallelFor` has a result, and every result is a normal
return without any call of the task. -/
theorem invalid_range_returns {E : Type} (hw start end_ numThreads : Nat)
    (fn : Nat → Nat → Option E) (hgt : end_ < start) (hn : 1 ≤ numThreads)
    (hsize : start + numThreads ≤ SIZE_MOD) :
    (∀ sched s, exec end_ fn (initState start (resolveThreads hw numThreads)) sched = some s →
      sched.length ≤ runBound start (resolveThreads hw numThreads) ∧
      ∃ rest r, ParallelFor hw start end_ numThreads fn (sched ++ rest) = some r) ∧
    (∀ sched r, ParallelFor hw start end_ numThreads fn sched = some r →
      r.outcome = Outcome.returned ∧ invokedIds r.log = []) := by
  have hstart : start < SIZE_MOD := by omega
  have hend : end_ < SIZE_MOD := by omega
  refine ⟨fun sched s h =>
    ParallelFor_terminates hw start end_ numThreads fn hstart hend sched s h, ?_⟩
  intro sched r h
  by_cases h1 : resolveThreads hw numThreads = 1
  · rw [ParallelFor_seq _ _ _ _ _ _ h1] at h
    have h0 : end_ - start = 0 := by omega
    rw [h0] at h
    unfold seqLoop at h
    rw [if_neg (by omega)] at h
    injection h with h
    subst h
    exact ⟨rfl, rfl⟩
  · obtain ⟨s, hex, hd, rfl⟩ := ParallelFor_multi_some h1 h
    rw [resolveThreads_pos hw numThreads hn] at hex
    have hmax : max start end_ + numThreads ≤ SIZE_MOD := by
      rw [Nat.max_eq_left (by omega)]; exact hsize
    obtain ⟨hnil, _⟩ := exec_invariant
      (fun s => invokedIds s.log = [] ∧
        (FailInv fn s ∧ s.pcs.length = numThreads ∧ OnceInv fn start end_ s))
      (fun a b t => empty_range_step (by omega) hmax a b t) sched _ s
      ⟨by simp [initState, invokedIds], FailInv_initState fn start numThreads,
        by simp [initState], OnceInv_initState fn start end_ numThreads hstart⟩ hex
    refine ⟨(multi_failures hend hn sched s hex hd).1.mpr ?_, hnil⟩
    intro tid id hmem
    have : id ∈ invokedIds s.log := (mem_invokedIds s.log id).mpr ⟨tid, hmem⟩
    rw [hnil] at this; cases this

/-- Witness for C5 as the code has it: `start = 5`, `end = 3`, two threads. -/
theorem invalid_range_returns_witness :
    (3 < 5) ∧ (1 ≤ 2) ∧ (5 + 2 ≤ SIZE_MOD) ∧
    ∀ sched r, ParallelFor 8 5 3 2 (fun id _ => some id) sched = some r →
      r.outcome = Outcome.returned ∧ invokedIds r.log = [] :=
  ⟨by decide, by decide, by decide,
    (invalid_range_returns 8 5 3 2 (fun id _ => some id) (by decide) (by decide)
      (by decide)).2⟩

/-- Counterexample to C5 as stated: with `start = 1 > end = 0` the call returns
normally, on the sequential branch and, after both threads were spawned and claimed
an index, on the multi-threaded branch. -/
theorem invalid_range_not_rejected :
    ParallelFor 8 1 0 1 (fun id _ => some id) []
      = some { log := [], outcome := Outcome.returned } ∧
    ParallelFor 8 1 0 2 (fun id _ => some id) [0, 1]
      = some { log := [Event.fetched 0 1, Event.fetched 1 2],
               outcome := Outcome.returned } := by
  decide

/-- C6 at the failing input: when `hardware_concurrency()` returns 0,
`ParallelFor(0, 1, 0, fn)` runs no thread; its only result is a normal return without
any call of the task on index 0. -/
theorem zero_hardware_threads_runs_nothing :
    resolveThreads 0 0 = 0 ∧
    ParallelFor 0 0 1 0 (fun _ _ => (none : Option Unit)) []
      = some { log := [], outcome := Outcome.returned } ∧
    (∀ sched r, ParallelFor 0 0 1 0 (fun _ _ => (none : Option Unit)) sched = some r →
      r.outcome = Outcome.returned ∧ (invokedIds r.log).count 0 = 0) := by
  refine ⟨by decide, by decide, ?_⟩
  intro sched r h
  have hne : resolveThreads 0 0 ≠ 1 := by decide
  obtain ⟨s, hex, _, rfl⟩ := ParallelFor_multi_some hne h
  cases sched with
  | nil =>
    simp only [exec] at hex
    injection hex with hex
    subst hex
    exact ⟨rfl, rfl⟩
  | cons t rest =>
    have hstep : step 1 (fun _ _ => (none : Option Unit))
        (initState 0 (resolveThreads 0 0)) t = none := by
      simp [step, initState, resolveThreads]
    simp only [exec, hstep] at hex
    cases hex

/-- C10 at the failing input: `start = 2^64 - 2`, `end = 2^64 - 1`, three threads, a
task that raises on every call. Thread 0 fails and stores `current = end`; thread 1
then claims `2^64 - 1` and wraps the cursor to 0; thread 2 then claims 0, which is
below `end`, and calls the task on index 0, outside the range. -/
theorem cancellation_wraps_around :
    ParallelFor 8 18446744073709551614 18446744073709551615 3 (fun id _ => some id)
        [0, 0, 0, 0, 0, 1, 2, 2, 2, 2, 2]
      = some { log := [Event.fetched 0 18446744073709551614,
                       Event.invoked 0 18446744073709551614,
                       Event.recorded 0 18446744073709551614,
                       Event.cancelled 0,
                       Event.fetched 1 18446744073709551615,
                       Event.fetched 2 0,
                       Event.invoked 2 0,
                       Event.recorded 2 0,
                       Event.cancelled 2],
               outcome := Outcome.raised 0 } ∧
    (18446744073709551615 : Nat) < SIZE_MOD ∧
    (0 : Nat) < 18446744073709551615 ∧ ¬ (18446744073709551614 ≤ (0 : Nat)) := by
  decide

/-! ## Cancellation when the cursor cannot wrap -/

theorem split_append_singleton {α : Type} {log l1 l2 : List α} {ev c : α}
    (h : log ++ [ev] = l1 ++ c :: l2) :
    (l2 = [] ∧ ev = c ∧ log = l1) ∨ (∃ l2', l2 = l2' ++ [ev] ∧ log = l1 ++ c :: l2') := by
  rcases List.eq_nil_or_concat l2 with hnil | ⟨l2', x, hx⟩
  · left
    subst hnil
    have h' : log ++ [ev] = l1 ++ [c] := h
    have := List.append_inj' h' rfl
    exact ⟨rfl, by simpa using this.2, this.1⟩
  · right
    subst hx
    have h' : log ++ [ev] = (l1 ++ c :: l2') ++ [x] := by
      rw [h]; simp
    have := List.append_inj' h' rfl
    have hev : ev = x := by simpa using this.2
    subst hev
    exact ⟨l2', by simp, this.1⟩

theorem CancelInv_initState {E : Type} (start end_ n : Nat) :
    CancelInv (E := E) start end_ n (initState start n) := by
  have hdc : doneCount (List.replicate n (PC.fetch (E := E))) = 0 := by
    unfold doneCount
    rw [List.countP_eq_zero]
    intro p hp
    rw [List.eq_of_mem_replicate hp]
    simp [PC.isDone]
  refine ⟨by simp [initState], ?_, ?_, ?_, ?_, ?_, ?_⟩
  · simp only [initState, hdc]
    have := le_max_left start end_
    omega
  · left
    simp only [initState]
    exact min_le_left start end_
  · rintro ⟨tid, h⟩; simp [initState] at h
  · intro w id h
    simp only [initState, List.getElem?_replicate] at h
    split at h <;> cases h
  · intro tid id h; simp [initState] at h
  · intro l1 l2 tid h
    simp only [initState] at h
    have := congrArg List.length h
    simp at this
    omega

theorem CancelInv_step {E : Type} {end_ : Nat} {fn : Nat → Nat → Option E} {start n : Nat}
    (hend : end_ < SIZE_MOD) (hsize : max start end_ + n ≤ SIZE_MOD)
    (s s' : State E) (tid : Nat) (hinv : CancelInv start end_ n s)
    (h : step end_ fn s tid = some s') : CancelInv start end_ n s' := by
  obtain ⟨hlen, c1, c2, c3, c4, c5, c6⟩ := hinv
  have hmaxe : end_ ≤ max start end_ := le_max_right _ _
  have hmine : min start end_ ≤ end_ := min_le_right _ _
  have hmins : min start end_ ≤ start := min_le_left _ _
  have hother : ∀ (p0 q : PC E), s.pcs[tid]? = some p0 → ∀ (w id : Nat),
      (s.pcs.set tid q)[w]? = some (PC.call id) → w ≠ tid →
      s.pcs[w]? = some (PC.call id) := by
    intro p0 q hp0 w id hw hne
    rw [getElem?_set_of_some hp0] at hw
    simpa [hne] using hw
  have hsame : ∀ (p0 q p : PC E), s.pcs[tid]? = some p0 →
      (s.pcs.set tid q)[tid]? = some p → p = q := by
    intro p0 q p hp0 hw
    rw [getElem?_set_of_some hp0] at hw
    simp at hw
    exact hw.symm
  -- the claims after a store, when the new event is not a claim
  have hlog : ∀ ev : Event E, (∀ t id, ev ≠ Event.fetched t id) →
      ∀ l1 l2 c, s.log ++ [ev] = l1 ++ Event.cancelled c :: l2 →
      ∀ t id, Event.fetched t id ∈ l2 → end_ ≤ id := by
    intro ev hev l1 l2 c hsplit t id hmem
    rcases split_append_singleton hsplit with ⟨hnil, _, _⟩ | ⟨l2', hl2, hlog'⟩
    · subst hnil; cases hmem
    · subst hl2
      rw [List.mem_append, List.mem_singleton] at hmem
      rcases hmem with hmem | hmem
      · exact c6 l1 l2' c hlog' t id hmem
      · exact absurd hmem.symm (hev t id)
  rcases step_cases h with ⟨hp, rfl⟩ | ⟨id, hp, rfl⟩ | ⟨e, hp, hm, rfl⟩ | ⟨e, hp, rfl⟩ |
    ⟨hp, rfl⟩
  · -- fetch
    have hd := doneCount_lt hp rfl
    rw [hlen] at hd
    have hcanc : (∃ t, Event.cancelled t ∈ s.log ++ [Event.fetched tid s.current]) →
        ∃ t, Event.cancelled t ∈ s.log := by
      rintro ⟨t, ht⟩
      rw [List.mem_append, List.mem_singleton] at ht
      rcases ht with ht | ht
      · exact ⟨t, ht⟩
      · cases ht
    have hsix : ∀ l1 l2 c, s.log ++ [Event.fetched tid s.current]
        = l1 ++ Event.cancelled c :: l2 →
        ∀ t id, Event.fetched t id ∈ l2 → end_ ≤ id := by
      intro l1 l2 c hsplit t id hmem
      rcases split_append_singleton hsplit with ⟨_, hev, _⟩ | ⟨l2', hl2, hlog'⟩
      · cases hev
      · subst hl2
        rw [List.mem_append, List.mem_singleton] at hmem
        rcases hmem with hmem | hmem
        · exact c6 l1 l2' c hlog' t id hmem
        · injection hmem with _ hid
          subst hid
          have hc : ∃ t, Event.cancelled t ∈ s.log := ⟨c, by rw [hlog']; simp⟩
          rcases c3 hc with h1 | h1
          · exact h1
          · omega
    unfold CancelInv
    dsimp only
    by_cases hge : s.current ≥ end_
    · simp only [hge, if_true]
      rw [doneCount_set hp rfl]
      simp only [PC.isDone, if_true]
      have hmod : (s.current + 1) % SIZE_MOD ≤ s.current + 1 := Nat.mod_le _ _
      refine ⟨by simpa using hlen, by omega, ?_, ?_, ?_, ?_, hsix⟩
      · by_cases hw : s.current + 1 < SIZE_MOD
        · left
          rw [Nat.mod_eq_of_lt hw]
          rcases c2 with h1 | h1
          · omega
          · omega
        · right; omega
      · intro hc
        by_cases hw : s.current + 1 < SIZE_MOD
        · left
          rw [Nat.mod_eq_of_lt hw]
          omega
        · right; omega
      · intro w id hw
        by_cases hwt : w = tid
        · subst hwt; have := hsame _ _ _ hp hw; cases this
        · exact c4 w id (hother _ _ hp w id hw hwt)
      · intro t id hmem
        rw [List.mem_append, List.mem_singleton] at hmem
        rcases hmem with hmem | hmem
        · exact c5 t id hmem
        · cases hmem
    · simp only [hge, if_false]
      rw [doneCount_set hp rfl]
      simp only [PC.isDone, Bool.false_eq_true, if_false, Nat.add_zero]
      have hlt : s.current < end_ := by omega
      have hmod : (s.current + 1) % SIZE_MOD = s.current + 1 := Nat.mod_eq_of_lt (by omega)
      rw [hmod]
      have hlo : min start end_ ≤ s.current := by
        rcases c2 with h1 | h1
        · exact h1
        · omega
      refine ⟨by simpa using hlen, by omega, Or.inl (by omega), ?_, ?_, ?_, hsix⟩
      · intro hc
        rcases c3 (hcanc hc) with h1 | h1
        · omega
        · omega
      · intro w id hw
        by_cases hwt : w = tid
        · subst hwt
          have := hsame _ _ _ hp hw
          injection this with this
          subst this
          refine ⟨?_, hlt⟩
          rcases Nat.le_total start end_ with hse | hse
          · rw [Nat.min_eq_left hse] at hlo; exact hlo
          · rw [Nat.min_eq_right hse] at hlo; omega
        · exact c4 w id (hother _ _ hp w id hw hwt)
      · intro t id hmem
        rw [List.mem_append, List.mem_singleton] at hmem
        rcases hmem with hmem | hmem
        · exact c5 t id hmem
        · cases hmem
  · -- call
    have hnd : ∀ q : PC E, q.isDone = false → doneCount (s.pcs.set tid q) = doneCount s.pcs := by
      intro q hq
      rw [doneCount_set hp rfl, hq]; simp
    have hq : (match fn id tid with
               | none => PC.fetch
               | some e => PC.caught e).isDone = false := by
      cases fn id tid <;> rfl
    unfold CancelInv
    dsimp only
    rw [hnd _ hq]
    refine ⟨by simpa using hlen, c1, c2, ?_, ?_, ?_, ?_⟩
    · rintro ⟨t, ht⟩
      rw [List.mem_append, List.mem_singleton] at ht
      rcases ht with ht | ht
      · exact c3 ⟨t, ht⟩
      · cases ht
    · intro w id' hw
      by_cases hwt : w = tid
      · subst hwt
        have := hsame _ _ _ hp hw
        cases hfn : fn id w with
        | none => rw [hfn] at this; cases this
        | some e => rw [hfn] at this; cases this
      · exact c4 w id' (hother _ _ hp w id' hw hwt)
    · intro t id' hmem
      rw [List.mem_append, List.mem_singleton] at hmem
      rcases hmem with hmem | hmem
      · exact c5 t id' hmem
      · injection hmem with _ hid
        subst hid
        exact c4 tid id' hp
    · exact hlog _ (fun t i hev => by cases hev)
  · -- lock
    unfold CancelInv
    dsimp only
    rw [doneCount_set hp rfl]
    simp only [PC.isDone, Bool.false_eq_true, if_false, Nat.add_zero]
    refine ⟨by simpa using hlen, c1, c2, c3, ?_, c5, c6⟩
    intro w id' hw
    by_cases hwt : w = tid
    · subst hwt; have := hsame _ _ _ hp hw; cases this
    · exact c4 w id' (hother _ _ hp w id' hw hwt)
  · -- record
    unfold CancelInv
    dsimp only
    rw [doneCount_set hp rfl]
    simp only [PC.isDone, Bool.false_eq_true, if_false, Nat.add_zero]
    refine ⟨by simpa using hlen, c1, c2, ?_, ?_, ?_, ?_⟩
    · rintro ⟨t, ht⟩
      rw [List.mem_append, List.mem_singleton] at ht
      rcases ht with ht | ht
      · exact c3 ⟨t, ht⟩
      · cases ht
    · intro w id' hw
      by_cases hwt : w = tid
      · subst hwt; have := hsame _ _ _ hp hw; cases this
      · exact c4 w id' (hother _ _ hp w id' hw hwt)
    · intro t id' hmem
      rw [List.mem_append, List.mem_singleton] at hmem
      rcases hmem with hmem | hmem
      · exact c5 t id' hmem
      · cases hmem
    · exact hlog _ (fun t i hev => by cases hev)
  · -- store
    unfold CancelInv
    dsimp only
    rw [doneCount_set hp rfl]
    simp only [PC.isDone, if_true]
    refine ⟨by simpa using hlen, by omega, Or.inl hmine, fun _ => Or.inl (le_refl _),
      ?_, ?_, ?_⟩
    · intro w id' hw
      by_cases hwt : w = tid
      · subst hwt; have := hsame _ _ _ hp hw; cases this
      · exact c4 w id' (hother _ _ hp w id' hw hwt)
    · intro t id' hmem
      rw [List.mem_append, List.mem_singleton] at hmem
      rcases hmem with hmem | hmem
      · exact c5 t id' hmem
      · cases hmem
    · exact hlog _ (fun t i hev => by cases hev)

/-- Cancellation when the cursor cannot wrap (`max start end + numThreads ≤ 2^64`),
whatever the task raises: at every point of every interleaving, each claim made after
a store of `current = end` got a value at or above `end`, and every index passed to
the task lies in `[start, end)`. -/
theorem no_claim_after_cancel {E : Type} {end_ : Nat} (fn : Nat → Nat → Option E)
    (start n : Nat) (hsize : max start end_ + n ≤ SIZE_MOD) (hn : 1 ≤ n)
    (sched : List Nat) (s : State E)
    (hex : exec end_ fn (initState start n) sched = some s) :
    (∀ l1 l2 tid, s.log = l1 ++ Event.cancelled tid :: l2 →
      ∀ t id, Event.fetched t id ∈ l2 → end_ ≤ id) ∧
    (∀ tid id, Event.invoked tid id ∈ s.log → start ≤ id ∧ id < end_) := by
  have hend : end_ < SIZE_MOD := by
    have := le_max_right start end_
    omega
  obtain ⟨_, _, _, _, _, c5, c6⟩ := exec_invariant (CancelInv start end_ n)
    (fun a b t => CancelInv_step hend hsize a b t) sched _ s
    (CancelInv_initState start end_ n) hex
  exact ⟨c6, c5⟩

end ParallelExec
